import Mathlib

/-!
# Verification of the tile compositing/caching engine of `map`

Shallow embedding of the core of the repository:
* `src/edit.cpp` — `LoadAndDecodeTile` (cache + fetch + decode with white
  fallback) and `CompositeMap` (per-tile blit compositor);
* `src/c1.cpp` / `src/map_visual.cpp` — `CompositeMap` (per-output-pixel
  compositor) and `LoadTileImage`, plus `LonToTileX`/`LatToTileY`-style
  Web Mercator projection math.

Modelling conventions:
* `unsigned char` buffers (`std::vector<unsigned char>`, decoded `stbi`
  buffers) are `List ℕ` of byte values; `memcpy(dst+d, src+s, 4)` is
  `copy4`, four `List.set` writes reading the source with `List.getD _ _ 0`
  (a read past the end of a C buffer is undefined behaviour; the model
  returns 0 there).
* `double` viewport geometry is exact rational arithmetic `ℚ`; C `fmod`
  (remainder truncated toward zero) is `fmodQ`, C's `(int)` cast is
  `ratTrunc`, C `%` on `int` is `Int.tmod`.
* The transcendental Web Mercator projection (`pow/log/tan/cos` on
  `double`) is embedded over `ℝ`; the compositors take the center's global
  pixel coordinates (the values the projection produces) as `ℚ` arguments.
* The network (`DownloadURL`) and the PNG decoder (`stbi_load_from_memory`)
  are oracles in an `Env`: `fetch : TileKey → Option bytes` (`none` =
  download failure) and `decode : bytes → Option (width, height, RGBA
  bytes)` (`none` = decode failure; the decoded buffer holds
  `width*height*4` bytes, of which `assign`/the caller copies exactly
  `w*h*4`, modelled by `List.take`).
* The global cache `g_tileCache` behind `g_cacheMutex` is explicit state
  `Cache`, threaded through the (sequentialized) computation;
  `unordered_map::emplace` is `cacheEmplace` (no overwrite of an existing
  key).  Each call that misses the cache performs exactly one network
  fetch attempt; the third component of the results counts those.
-/

/-- Byte-buffer write of 4 consecutive bytes:
`memcpy(&dst[d], &src[s], 4)` from the source. -/
def copy4 (dst : List ℕ) (d : ℕ) (src : List ℕ) (s : ℕ) : List ℕ :=
  ((((dst.set d (src.getD s 0)).set (d+1) (src.getD (s+1) 0)).set
      (d+2) (src.getD (s+2) 0)).set (d+3) (src.getD (s+3) 0))

/-- `TileKey` from `src/edit.cpp` (`int z, x, y`). -/
structure TileKey where
  z : ℤ
  x : ℤ
  y : ℤ
deriving DecidableEq

/-- The global tile cache `g_tileCache` (id → decoded pixel buffer). -/
def Cache : Type := TileKey → Option (List ℕ)

/-- The empty cache (process start). -/
def emptyCache : Cache := fun _ => none

/-- `g_tileCache.emplace(key, pixels)`: insert only if the key is absent
(`std::unordered_map::emplace` never overwrites an existing entry). -/
def cacheEmplace (c : Cache) (k : TileKey) (v : List ℕ) : Cache :=
  match c k with
  | some _ => c
  | none => fun q => if q = k then some v else c q

/-- The external world: blocking byte fetch and image decode oracles. -/
structure Env where
  fetch : TileKey → Option (List ℕ)
  decode : List ℕ → Option (ℕ × ℕ × List ℕ)

/-- The fetch-and-decode body of `LoadAndDecodeTile` (`src/edit.cpp`
lines 108–120): start from a `tileSize*tileSize*4` buffer of 255s; on
successful download and decode, `pixels.assign(img, img + w*h*4)`. -/
def fetchDecodePixels (env : Env) (k : TileKey) (tileSize : ℕ) : List ℕ :=
  match env.fetch k with
  | none => List.replicate (tileSize * tileSize * 4) 255
  | some raw =>
    match env.decode raw with
    | none => List.replicate (tileSize * tileSize * 4) 255
    | some (w, h, img) => img.take (w * h * 4)

/-- `LoadAndDecodeTile` from `src/edit.cpp` (lines 94–127): cache lookup,
then on a miss download+decode (one network fetch attempt) and
`emplace` the result.  Returns (pixels, new cache, number of fetches). -/
def LoadAndDecodeTile (env : Env) (c : Cache) (tileX tileY zoom : ℤ)
    (tileSize : ℕ) : List ℕ × Cache × ℕ :=
  let key : TileKey := ⟨zoom, tileX, tileY⟩
  match c key with
  | some img => (img, c, 0)
  | none =>
    let pixels := fetchDecodePixels env key tileSize
    (pixels, cacheEmplace c key pixels, 1)

/-- C `(int)` cast of a floating value: truncation toward zero. -/
def ratTrunc (q : ℚ) : ℤ := if 0 ≤ q then ⌊q⌋ else ⌈q⌉

/-- C `fmod(a, b)`: `a - b * trunc(a/b)` (remainder with the sign of `a`). -/
def fmodQ (a b : ℚ) : ℚ := a - b * ratTrunc (a / b)

/-- Mathematical (floor-division) modulo on ℚ, as used by the spec's
offset formulas. -/
def floorModQ (a b : ℚ) : ℚ := a - b * ⌊a / b⌋

/-- `topLeft = center - dimension/2.0` (both compositors). -/
def topLeftOf (center : ℚ) (dim : ℕ) : ℚ := center - (dim : ℚ) / 2

/-- `startTile = (int)floor(topLeft / tileSize)` (both compositors). -/
def startTileOf (topLeft : ℚ) (ts : ℕ) : ℤ := ⌊topLeft / (ts : ℚ)⌋

/-- `endTile = (int)floor((topLeft + dimension) / tileSize)`. -/
def endTileOf (topLeft : ℚ) (dim ts : ℕ) : ℤ := ⌊(topLeft + (dim : ℚ)) / (ts : ℚ)⌋

/-- `numTiles = endTile - startTile + 1` (an `int` in the source; it is
nonnegative whenever `tileSize > 0`). -/
def numTilesOf (topLeft : ℚ) (dim ts : ℕ) : ℕ :=
  (endTileOf topLeft dim ts - startTileOf topLeft ts + 1).toNat

/-- Tile placement offset from `src/edit.cpp` lines 171–172:
`(int)floor(t * (double)tileSize - fmod(topLeft, tileSize))`. -/
def tileOffset (t : ℕ) (topLeft : ℚ) (ts : ℕ) : ℤ :=
  ⌊(t : ℚ) * (ts : ℚ) - fmodQ topLeft (ts : ℚ)⌋

/-- The spec's placement-offset formula (§4.4 step 6):
`offset = t*tileSize − (topLeft mod tileSize)` with *floor-division*
modulo, rounded down to the integer pixel grid. -/
def specTileOffset (t : ℕ) (topLeft : ℚ) (ts : ℕ) : ℤ :=
  ⌊(t : ℚ) * (ts : ℚ) - floorModQ topLeft (ts : ℚ)⌋

/-- Body of the inner blit loop of `src/edit.cpp` (lines 177–183): write
tile pixel `(i, j)` to destination column `offX + i`, skipping columns
outside `[0, W)`. -/
def blitRowStep (W : ℕ) (pixels : List ℕ) (ts : ℕ) (offX : ℤ) (destY : ℤ)
    (j : ℕ) (b : List ℕ) (i : ℕ) : List ℕ :=
  let destX : ℤ := offX + i
  if destX < 0 ∨ (W : ℤ) ≤ destX then b
  else copy4 b ((destY * W + destX) * 4).toNat pixels ((j * ts + i) * 4)

/-- Body of the outer blit loop of `src/edit.cpp` (lines 174–184): row `j`
of the tile goes to destination row `offY + j`, skipped entirely when
outside `[0, H)`. -/
def blitTileStep (W H : ℕ) (pixels : List ℕ) (ts : ℕ) (offX offY : ℤ)
    (b : List ℕ) (j : ℕ) : List ℕ :=
  let destY : ℤ := offY + j
  if destY < 0 ∨ (H : ℤ) ≤ destY then b
  else (List.range ts).foldl (blitRowStep W pixels ts offX destY j) b

/-- The clipped tile blit of `src/edit.cpp` (lines 174–184). -/
def blitTile (buf : List ℕ) (W H : ℕ) (pixels : List ℕ) (ts : ℕ)
    (offX offY : ℤ) : List ℕ :=
  (List.range ts).foldl (blitTileStep W H pixels ts offX offY) buf

/-- Body of the join-and-composite loop of `src/edit.cpp`
(lines 166–185): take tile `idx` (`ty = idx / numTilesX`,
`tx = idx % numTilesX`) from `LoadAndDecodeTile` — threading the shared
cache and the fetch count — and blit it at its offsets. -/
def compositeStep (env : Env) (finalWidth finalHeight : ℕ)
    (centerX centerY : ℚ) (zoom : ℤ) (tileSize : ℕ)
    (st : List ℕ × Cache × ℕ) (idx : ℕ) : List ℕ × Cache × ℕ :=
  let topLeftX := topLeftOf centerX finalWidth
  let topLeftY := topLeftOf centerY finalHeight
  let numTilesX := numTilesOf topLeftX finalWidth tileSize
  let ty := idx / numTilesX
  let tx := idx % numTilesX
  let r := LoadAndDecodeTile env st.2.1
    (startTileOf topLeftX tileSize + tx) (startTileOf topLeftY tileSize + ty)
    zoom tileSize
  let offX := tileOffset tx topLeftX tileSize
  let offY := tileOffset ty topLeftY tileSize
  (blitTile st.1 finalWidth finalHeight r.1 tileSize offX offY,
    r.2.1, st.2.2 + r.2.2)

/-- `CompositeMap` from `src/edit.cpp` (lines 132–187), taking the
center's global pixel coordinates (the projection applied to
(centerLon, centerLat), see `geoPixelX`/`geoPixelY`) as exact rationals.
The tile futures are launched row-major and joined in the same order
(`ty = idx / numTilesX`, `tx = idx % numTilesX`); the shared cache is
threaded through in that order.  Returns
(raster, final cache, total network fetches). -/
def CompositeMapEdit (env : Env) (c : Cache) (finalWidth finalHeight : ℕ)
    (centerX centerY : ℚ) (zoom : ℤ) (tileSize : ℕ) :
    List ℕ × Cache × ℕ :=
  let numTilesX := numTilesOf (topLeftOf centerX finalWidth) finalWidth tileSize
  let numTilesY := numTilesOf (topLeftOf centerY finalHeight) finalHeight tileSize
  let init := List.replicate (finalWidth * finalHeight * 4) 255
  (List.range (numTilesX * numTilesY)).foldl
    (compositeStep env finalWidth finalHeight centerX centerY zoom tileSize)
    (init, c, 0)

/-- `LoadTileImage` from `src/c1.cpp` (lines 75–85): download then decode,
`nullptr` (here `none`) on either failure; the caller receives the
`w*h*4`-byte decoded buffer. -/
def LoadTileImage (env : Env) (k : TileKey) : Option (List ℕ) :=
  match env.fetch k with
  | none => none
  | some raw =>
    match env.decode raw with
    | none => none
    | some (w, h, img) => some (img.take (w * h * 4))

/-- Body of the per-pixel compositing loop of `src/c1.cpp`
(lines 147–163): output pixel `(i, j)` samples the tile under global
coordinate `topLeft + (i, j)`, with `pixelX = ((int)globalX) % tileSize`
(C truncating cast and truncating `%`). -/
def c1PixelStep (tileImages : ℕ → ℕ → Option (List ℕ))
    (W : ℕ) (topLeftX topLeftY : ℚ) (startTileX startTileY : ℤ)
    (numTilesX numTilesY ts : ℕ) (j : ℕ) (b : List ℕ) (i : ℕ) : List ℕ :=
  let globalX : ℚ := topLeftX + i
  let globalY : ℚ := topLeftY + j
  let tileCol : ℤ := ⌊globalX / (ts : ℚ)⌋ - startTileX
  let tileRow : ℤ := ⌊globalY / (ts : ℚ)⌋ - startTileY
  let pixelX : ℤ := Int.tmod (ratTrunc globalX) ts
  let pixelY : ℤ := Int.tmod (ratTrunc globalY) ts
  if 0 ≤ tileRow ∧ tileRow < (numTilesY : ℤ) ∧ 0 ≤ tileCol ∧ tileCol < (numTilesX : ℤ) then
    match tileImages tileRow.toNat tileCol.toNat with
    | some tileImg =>
        copy4 b ((j * W + i) * 4) tileImg ((pixelY * ts + pixelX) * 4).toNat
    | none => b
  else b

/-- `CompositeMap` from `src/c1.cpp` (lines 107–174; identical in
`src/map_visual.cpp` lines 115–178): fetch every grid tile (no cache),
then composite per output pixel. -/
def CompositeMapC1 (env : Env) (finalWidth finalHeight : ℕ)
    (centerX centerY : ℚ) (zoom : ℤ) (tileSize : ℕ) : List ℕ :=
  let topLeftX := topLeftOf centerX finalWidth
  let topLeftY := topLeftOf centerY finalHeight
  let startTileX := startTileOf topLeftX tileSize
  let startTileY := startTileOf topLeftY tileSize
  let numTilesX := numTilesOf topLeftX finalWidth tileSize
  let numTilesY := numTilesOf topLeftY finalHeight tileSize
  let tileImages : ℕ → ℕ → Option (List ℕ) := fun row col =>
    LoadTileImage env ⟨zoom, startTileX + col, startTileY + row⟩
  let init := List.replicate (finalWidth * finalHeight * 4) 255
  (List.range finalHeight).foldl (fun buf j =>
      (List.range finalWidth).foldl
        (c1PixelStep tileImages finalWidth topLeftX topLeftY startTileX
          startTileY numTilesX numTilesY tileSize j) buf)
    init

/-- Global pixel X of a longitude:
`(lon + 180)/360 * 2^zoom * tileSize` (both compositors, line 136 of
`src/edit.cpp`; `LonToTileX` divides this by `tileSize` and floors). -/
noncomputable def geoPixelX (lon : ℝ) (zoom tileSize : ℕ) : ℝ :=
  (lon + 180) / 360 * 2 ^ zoom * tileSize

/-- Global pixel Y of a latitude (Web Mercator forward transform):
`(1 - log(tan(latRad) + 1/cos(latRad))/π)/2 * 2^zoom * tileSize`
(line 138 of `src/edit.cpp`; `LatToTileY` divides by `tileSize` and
floors). -/
noncomputable def geoPixelY (lat : ℝ) (zoom tileSize : ℕ) : ℝ :=
  (1 - Real.log (Real.tan (lat * Real.pi / 180)
      + 1 / Real.cos (lat * Real.pi / 180)) / Real.pi) / 2
    * 2 ^ zoom * tileSize

/-!
## Interleaving model of two concurrent `LoadAndDecodeTile` calls

`g_cacheMutex` guards exactly two critical sections of
`LoadAndDecodeTile`: the cache lookup (lines 96–101) and the `emplace`
(lines 122–125).  The download and decode run with the lock released.
A thread for key `k` is therefore in one of three phases:
0 — before its cache lookup; 1 — lookup missed, fetch/decode in flight,
insert not yet performed; 2 — done.  `threadStep` advances one thread by
one atomic phase (the fetch/decode plus the subsequent emplace are taken
as one step, which only restricts the schedules considered; every
behaviour below is a behaviour of the finer model). -/
structure DupState where
  cache : Cache
  pcA : ℕ
  pcB : ℕ
  fetchedA : Bool
  fetchedB : Bool

/-- Advance thread A (`isA = true`) or B by one atomic phase of
`LoadAndDecodeTile env _ k.x k.y k.z ts`. -/
def threadStep (env : Env) (k : TileKey) (ts : ℕ) (isA : Bool)
    (s : DupState) : DupState :=
  let pc := if isA then s.pcA else s.pcB
  if pc = 0 then
    match s.cache k with
    | some _ => if isA then { s with pcA := 2 } else { s with pcB := 2 }
    | none => if isA then { s with pcA := 1 } else { s with pcB := 1 }
  else if pc = 1 then
    let pixels := fetchDecodePixels env k ts
    if isA then
      { s with cache := cacheEmplace s.cache k pixels, pcA := 2, fetchedA := true }
    else
      { s with cache := cacheEmplace s.cache k pixels, pcB := 2, fetchedB := true }
  else s

/-- Run an interleaving (`true` = a step of thread A). -/
def runTrace (env : Env) (k : TileKey) (ts : ℕ) (s : DupState)
    (trace : List Bool) : DupState :=
  trace.foldl (fun st who => threadStep env k ts who st) s

/-!
## Generic fold helpers
-/

/-- Invariant of a left fold, indexed by how many of `List.range N` have
been consumed. -/
theorem foldl_range_invariant {α : Type} (step : α → ℕ → α)
    (Inv : α → ℕ → Prop) :
    ∀ (N : ℕ) (a₀ : α), Inv a₀ 0 →
      (∀ a i, i < N → Inv a i → Inv (step a i) (i + 1)) →
      Inv ((List.range N).foldl step a₀) N := by
  intro N
  induction N with
  | zero => intro a₀ h0 _; simpa using h0
  | succ m ih =>
    intro a₀ h0 hstep
    rw [List.range_succ, List.foldl_append, List.foldl_cons, List.foldl_nil]
    exact hstep _ m (Nat.lt_succ_self m)
      (ih a₀ h0 (fun a i hi hInv => hstep a i (Nat.lt_succ_of_lt hi) hInv))

/-- A view of the state that no step of the fold changes is unchanged by
the whole fold. -/
theorem foldl_range_view_skip {α γ : Type} (step : α → ℕ → α) (view : α → γ)
    (Inv : α → ℕ → Prop) :
    ∀ (N : ℕ) (a₀ : α), Inv a₀ 0 →
      (∀ a i, i < N → Inv a i → Inv (step a i) (i + 1)) →
      (∀ a i, i < N → Inv a i → view (step a i) = view a) →
      view ((List.range N).foldl step a₀) = view a₀ := by
  intro N
  induction N with
  | zero => intro a₀ _ _ _; simp
  | succ m ih =>
    intro a₀ h0 hstep hother
    rw [List.range_succ, List.foldl_append, List.foldl_cons, List.foldl_nil]
    rw [hother _ m (Nat.lt_succ_self m)
      (foldl_range_invariant step Inv m a₀ h0
        (fun a i hi hInv => hstep a i (Nat.lt_succ_of_lt hi) hInv))]
    exact ih a₀ h0 (fun a i hi hInv => hstep a i (Nat.lt_succ_of_lt hi) hInv)
      (fun a i hi hInv => hother a i (Nat.lt_succ_of_lt hi) hInv)

/-- A view of the state written exactly once during the fold (at index
`i₀`, to a value independent of the state) ends at the written value. -/
theorem foldl_range_view_write {α γ : Type} (step : α → ℕ → α) (view : α → γ)
    (Inv : α → ℕ → Prop) :
    ∀ (N : ℕ) (a₀ : α) (i₀ : ℕ) (v : γ), Inv a₀ 0 →
      (∀ a i, i < N → Inv a i → Inv (step a i) (i + 1)) →
      i₀ < N →
      (∀ a i, i < N → i ≠ i₀ → Inv a i → view (step a i) = view a) →
      (∀ a, Inv a i₀ → view (step a i₀) = v) →
      view ((List.range N).foldl step a₀) = v := by
  intro N
  induction N with
  | zero => intro a₀ i₀ v _ _ h _ _; exact absurd h (Nat.not_lt_zero _)
  | succ m ih =>
    intro a₀ i₀ v h0 hstep hi₀ hother hwrite
    rw [List.range_succ, List.foldl_append, List.foldl_cons, List.foldl_nil]
    have hInvm : Inv ((List.range m).foldl step a₀) m :=
      foldl_range_invariant step Inv m a₀ h0
        (fun a i hi hInv => hstep a i (Nat.lt_succ_of_lt hi) hInv)
    by_cases hm : m = i₀
    · subst hm; exact hwrite _ hInvm
    · rw [hother _ m (Nat.lt_succ_self m) hm hInvm]
      exact ih a₀ i₀ v h0 (fun a i hi hInv => hstep a i (Nat.lt_succ_of_lt hi) hInv)
        (lt_of_le_of_ne (Nat.lt_succ_iff.mp hi₀) (Ne.symm hm))
        (fun a i hi hne hInv => hother a i (Nat.lt_succ_of_lt hi) hne hInv) hwrite

/-!
## Pointwise behaviour of `copy4`
-/

theorem copy4_length (dst : List ℕ) (d : ℕ) (src : List ℕ) (s : ℕ) :
    (copy4 dst d src s).length = dst.length := by
  simp [copy4]

/-- Bytes outside the written window `[d, d+4)` are unchanged. -/
theorem copy4_getD_outside (dst : List ℕ) (d : ℕ) (src : List ℕ) (s k : ℕ)
    (h : k < d ∨ d + 4 ≤ k) :
    (copy4 dst d src s).getD k 0 = dst.getD k 0 := by
  have h0 : ¬(d = k) := by omega
  have h1 : ¬(d + 1 = k) := by omega
  have h2 : ¬(d + 2 = k) := by omega
  have h3 : ¬(d + 3 = k) := by omega
  simp [copy4, List.getD_eq_getElem?_getD, List.getElem?_set, h0, h1, h2, h3]

/-- Bytes inside the written window receive the source bytes. -/
theorem copy4_getD_inside (dst : List ℕ) (d : ℕ) (src : List ℕ) (s c : ℕ)
    (hc : c < 4) (hk : d + c < dst.length) :
    (copy4 dst d src s).getD (d + c) 0 = src.getD (s + c) 0 := by
  interval_cases c <;>
    simp [copy4, List.getD_eq_getElem?_getD, List.getElem?_set,
      List.length_set, hk, Nat.lt_of_add_right_lt hk, show d ≠ d + 1 by omega,
      show d ≠ d + 2 by omega, show d ≠ d + 3 by omega,
      show d + 1 ≠ d + 2 by omega, show d + 1 ≠ d + 3 by omega,
      show d + 2 ≠ d + 3 by omega]

/-- Distinct pixel positions occupy disjoint byte windows. -/
theorem pixel_pos_ne (W x x2 y y2 : ℕ) (hx : x < W) (hx2 : x2 < W)
    (hne : x ≠ x2 ∨ y ≠ y2) : y * W + x ≠ y2 * W + x2 := by
  intro h
  rcases Nat.lt_trichotomy y y2 with hy | hy | hy
  · have : (y + 1) * W ≤ y2 * W := Nat.mul_le_mul_right W hy
    nlinarith
  · subst hy
    have : x = x2 := by omega
    tauto
  · have : (y2 + 1) * W ≤ y * W := Nat.mul_le_mul_right W hy
    nlinarith

/-!
## Pointwise behaviour of the clipped blit of `src/edit.cpp`
-/

theorem blitRow_length (W : ℕ) (pixels : List ℕ) (ts : ℕ) (offX destY : ℤ)
    (j t : ℕ) (b : List ℕ) :
    ((List.range t).foldl (blitRowStep W pixels ts offX destY j) b).length
      = b.length := by
  apply foldl_range_invariant (blitRowStep W pixels ts offX destY j)
    (fun a _ => a.length = b.length) t b rfl
  intro a i _ ha
  simp only [blitRowStep]
  split
  · exact ha
  · rw [copy4_length]; exact ha

theorem blitRow_getD_skip (W : ℕ) (pixels : List ℕ) (ts : ℕ) (offX destY : ℤ)
    (j : ℕ) (b : List ℕ) (x y c : ℕ) (hx : x < W) (hc : c < 4)
    (hdY : 0 ≤ destY)
    (hmiss : (y : ℤ) ≠ destY ∨ (x : ℤ) < offX ∨ offX + (ts : ℤ) ≤ (x : ℤ)) :
    ((List.range ts).foldl (blitRowStep W pixels ts offX destY j) b).getD
        ((y * W + x) * 4 + c) 0
      = b.getD ((y * W + x) * 4 + c) 0 := by
  apply foldl_range_view_skip (blitRowStep W pixels ts offX destY j)
    (fun a => a.getD ((y * W + x) * 4 + c) 0) (fun _ _ => True) ts b trivial
    (fun _ _ _ _ => trivial)
  intro a i hi _
  simp only [blitRowStep]
  by_cases hg : offX + (i : ℤ) < 0 ∨ (W : ℤ) ≤ offX + (i : ℤ)
  · simp only [hg, if_true]
  · rw [if_neg hg]
    push_neg at hg
    have hdx0 : 0 ≤ offX + (i : ℤ) := by omega
    have hdxW : (offX + (i : ℤ)).toNat < W := by omega
    have hidx : ((destY * (W : ℤ) + (offX + (i : ℤ))) * 4).toNat
        = (destY.toNat * W + (offX + (i : ℤ)).toNat) * 4 := by
      have h1 : destY * (W : ℤ) + (offX + (i : ℤ))
          = ((destY.toNat * W + (offX + (i : ℤ)).toNat : ℕ) : ℤ) := by
        push_cast [Int.toNat_of_nonneg hdY, Int.toNat_of_nonneg hdx0]
        ring
      rw [h1]
      omega
    rw [hidx]
    apply copy4_getD_outside
    have hpq : destY.toNat * W + (offX + (i : ℤ)).toNat ≠ y * W + x := by
      apply pixel_pos_ne W _ x _ y hdxW hx
      rcases hmiss with hmy | hmx | hmx
      · right; omega
      · left; omega
      · left; omega
    omega

theorem blitRow_getD_write (W : ℕ) (pixels : List ℕ) (ts : ℕ)
    (offX destY : ℤ) (j : ℕ) (b : List ℕ) (x c : ℕ)
    (hx : x < W) (hc : c < 4) (hdY : 0 ≤ destY)
    (hin : offX ≤ (x : ℤ) ∧ (x : ℤ) < offX + (ts : ℤ))
    (hk : (destY.toNat * W + x) * 4 + c < b.length) :
    ((List.range ts).foldl (blitRowStep W pixels ts offX destY j) b).getD
        ((destY.toNat * W + x) * 4 + c) 0
      = pixels.getD ((j * ts + ((x : ℤ) - offX).toNat) * 4 + c) 0 := by
  apply foldl_range_view_write (blitRowStep W pixels ts offX destY j)
    (fun a => a.getD ((destY.toNat * W + x) * 4 + c) 0)
    (fun a _ => a.length = b.length) ts b (((x : ℤ) - offX).toNat) _ rfl
  · intro a i _ ha
    simp only [blitRowStep]
    split
    · exact ha
    · rw [copy4_length]; exact ha
  · omega
  · intro a i hi hne _
    simp only [blitRowStep]
    by_cases hg : offX + (i : ℤ) < 0 ∨ (W : ℤ) ≤ offX + (i : ℤ)
    · simp only [hg, if_true]
    · rw [if_neg hg]
      push_neg at hg
      have hdx0 : 0 ≤ offX + (i : ℤ) := by omega
      have hdxW : (offX + (i : ℤ)).toNat < W := by omega
      have hidx : ((destY * (W : ℤ) + (offX + (i : ℤ))) * 4).toNat
          = (destY.toNat * W + (offX + (i : ℤ)).toNat) * 4 := by
        have h1 : destY * (W : ℤ) + (offX + (i : ℤ))
            = ((destY.toNat * W + (offX + (i : ℤ)).toNat : ℕ) : ℤ) := by
          push_cast [Int.toNat_of_nonneg hdY, Int.toNat_of_nonneg hdx0]
          ring
        rw [h1]
        omega
      rw [hidx]
      apply copy4_getD_outside
      have hpq : destY.toNat * W + (offX + (i : ℤ)).toNat ≠ destY.toNat * W + x := by
        apply pixel_pos_ne W _ x _ destY.toNat hdxW hx
        left
        omega
      omega
  · intro a ha
    simp only [blitRowStep]
    have hi₀ : offX + ((((x : ℤ) - offX).toNat : ℕ) : ℤ) = (x : ℤ) := by omega
    rw [hi₀]
    have hg : ¬((x : ℤ) < 0 ∨ (W : ℤ) ≤ (x : ℤ)) := by
      push_neg
      constructor
      · exact Int.ofNat_nonneg x
      · exact_mod_cast hx
    rw [if_neg hg]
    have hidx : ((destY * (W : ℤ) + (x : ℤ)) * 4).toNat
        = (destY.toNat * W + x) * 4 := by
      have h1 : destY * (W : ℤ) + (x : ℤ)
          = ((destY.toNat * W + x : ℕ) : ℤ) := by
        push_cast [Int.toNat_of_nonneg hdY]
        ring
      rw [h1]
      omega
    rw [hidx]
    have := copy4_getD_inside a ((destY.toNat * W + x) * 4) pixels
      ((j * ts + ((x : ℤ) - offX).toNat) * 4) c hc (by rw [ha]; exact hk)
    rw [this]

theorem blitTile_length (buf : List ℕ) (W H : ℕ) (pixels : List ℕ)
    (ts : ℕ) (offX offY : ℤ) :
    (blitTile buf W H pixels ts offX offY).length = buf.length := by
  apply foldl_range_invariant (blitTileStep W H pixels ts offX offY)
    (fun a _ => a.length = buf.length) ts buf rfl
  intro a j _ ha
  simp only [blitTileStep]
  split
  · exact ha
  · rw [blitRow_length]; exact ha

/-- A byte of a pixel outside the tile's placement rectangle is untouched
by the blit. -/
theorem blitTile_getD_skip (buf : List ℕ) (W H : ℕ) (pixels : List ℕ)
    (ts : ℕ) (offX offY : ℤ) (x y c : ℕ) (hx : x < W) (hc : c < 4)
    (hmiss : ¬(offX ≤ (x : ℤ) ∧ (x : ℤ) < offX + (ts : ℤ) ∧
      offY ≤ (y : ℤ) ∧ (y : ℤ) < offY + (ts : ℤ))) :
    (blitTile buf W H pixels ts offX offY).getD ((y * W + x) * 4 + c) 0
      = buf.getD ((y * W + x) * 4 + c) 0 := by
  apply foldl_range_view_skip (blitTileStep W H pixels ts offX offY)
    (fun a => a.getD ((y * W + x) * 4 + c) 0) (fun _ _ => True) ts buf trivial
    (fun _ _ _ _ => trivial)
  intro a j hj _
  simp only [blitTileStep]
  by_cases hg : offY + (j : ℤ) < 0 ∨ (H : ℤ) ≤ offY + (j : ℤ)
  · simp only [hg, if_true]
  · rw [if_neg hg]
    push_neg at hg
    apply blitRow_getD_skip W pixels ts offX (offY + (j : ℤ)) j a x y c hx hc
      (by omega)
    by_cases hxin : offX ≤ (x : ℤ) ∧ (x : ℤ) < offX + (ts : ℤ)
    · left
      have : ¬(offY ≤ (y : ℤ) ∧ (y : ℤ) < offY + (ts : ℤ)) := by tauto
      omega
    · right
      omega

/-- A byte of a pixel inside the tile's placement rectangle (and inside
the raster) receives the corresponding tile byte. -/
theorem blitTile_getD_write (buf : List ℕ) (W H : ℕ) (pixels : List ℕ)
    (ts : ℕ) (offX offY : ℤ) (x y c : ℕ) (hx : x < W) (hy : y < H)
    (hc : c < 4) (hk : (y * W + x) * 4 + c < buf.length)
    (hin : offX ≤ (x : ℤ) ∧ (x : ℤ) < offX + (ts : ℤ) ∧
      offY ≤ (y : ℤ) ∧ (y : ℤ) < offY + (ts : ℤ)) :
    (blitTile buf W H pixels ts offX offY).getD ((y * W + x) * 4 + c) 0
      = pixels.getD
          (((((y : ℤ) - offY).toNat) * ts + ((x : ℤ) - offX).toNat) * 4 + c) 0 := by
  apply foldl_range_view_write (blitTileStep W H pixels ts offX offY)
    (fun a => a.getD ((y * W + x) * 4 + c) 0)
    (fun a _ => a.length = buf.length) ts buf (((y : ℤ) - offY).toNat) _ rfl
  · intro a j _ ha
    simp only [blitTileStep]
    split
    · exact ha
    · rw [blitRow_length]; exact ha
  · omega
  · intro a j hj hne _
    simp only [blitTileStep]
    by_cases hg : offY + (j : ℤ) < 0 ∨ (H : ℤ) ≤ offY + (j : ℤ)
    · simp only [hg, if_true]
    · rw [if_neg hg]
      push_neg at hg
      apply blitRow_getD_skip W pixels ts offX (offY + (j : ℤ)) j a x y c hx hc
        (by omega)
      left
      omega
  · intro a ha
    simp only [blitTileStep]
    have hdY : offY + ((((y : ℤ) - offY).toNat : ℕ) : ℤ) = (y : ℤ) := by omega
    rw [hdY]
    have hg : ¬((y : ℤ) < 0 ∨ (H : ℤ) ≤ (y : ℤ)) := by
      push_neg
      constructor
      · exact Int.ofNat_nonneg y
      · exact_mod_cast hy
    rw [if_neg hg]
    have hYnat : ((y : ℤ)).toNat = y := Int.toNat_natCast y
    have := blitRow_getD_write W pixels ts offX ((y : ℤ))
      (((y : ℤ) - offY).toNat) a x c hx hc (Int.ofNat_nonneg y)
      ⟨hin.1, hin.2.1⟩ (by rw [hYnat, ha]; exact hk)
    rw [hYnat] at this
    exact this

/-!
## Cache lemmas
-/

/-- Truncation of an integer is the integer itself. -/
theorem ratTrunc_intCast (m : ℤ) : ratTrunc (m : ℚ) = m := by
  unfold ratTrunc
  split <;> simp

/-- An `emplace` for any key preserves an existing entry of any key. -/
theorem cacheEmplace_preserves (c : Cache) (kIns : TileKey) (w : List ℕ)
    (k : TileKey) (v : List ℕ) (hv : c k = some v) :
    cacheEmplace c kIns w k = some v := by
  unfold cacheEmplace
  cases hq : c kIns with
  | some u => exact hv
  | none =>
    by_cases hkq : k = kIns
    · rw [hkq] at hv
      rw [hv] at hq
      cases hq
    · simp only [if_neg hkq]
      exact hv

/-- A sequence of `emplace` operations (`src/edit.cpp` line 124, iterated
over the process lifetime). -/
def cacheInsertAll (c : Cache) (ops : List (TileKey × List ℕ)) : Cache :=
  ops.foldl (fun cc op => cacheEmplace cc op.1 op.2) c

theorem cacheInsertAll_preserves :
    ∀ (ops : List (TileKey × List ℕ)) (c : Cache) (k : TileKey) (v : List ℕ),
      c k = some v → cacheInsertAll c ops k = some v := by
  intro ops
  induction ops with
  | nil => intro c k v hv; exact hv
  | cons op rest ih =>
    intro c k v hv
    have : cacheInsertAll c (op :: rest)
        = cacheInsertAll (cacheEmplace c op.1 op.2) rest := by
      simp [cacheInsertAll]
    rw [this]
    exact ih _ k v (cacheEmplace_preserves c op.1 op.2 k v hv)

/-- C7: once a TileImage is stored in the cache under a TileId it is never
replaced: a later `emplace` for the same id is a no-op, and after any
further sequence of inserts a lookup still returns the first-inserted
image. -/
theorem C7_first_insert_wins (c : Cache) (k : TileKey) (v : List ℕ)
    (hv : c k = some v) :
    (∀ w, cacheEmplace c k w = c) ∧
    (∀ ops : List (TileKey × List ℕ), cacheInsertAll c ops k = some v) := by
  constructor
  · intro w
    unfold cacheEmplace
    rw [hv]
  · intro ops
    exact cacheInsertAll_preserves ops c k v hv

/-- C7 witness: insert `[7]` under a key, then a competing insert of `[8]`
for the same key changes nothing and lookup still yields `[7]`. -/
theorem C7_first_insert_wins_witness :
    cacheEmplace (cacheEmplace emptyCache ⟨1, 2, 3⟩ [7]) ⟨1, 2, 3⟩ [8]
        = cacheEmplace emptyCache ⟨1, 2, 3⟩ [7] ∧
    cacheInsertAll (cacheEmplace emptyCache ⟨1, 2, 3⟩ [7])
        [(⟨1, 2, 3⟩, [8])] ⟨1, 2, 3⟩ = some [7] :=
  ⟨(C7_first_insert_wins (cacheEmplace emptyCache ⟨1, 2, 3⟩ [7]) ⟨1, 2, 3⟩ [7]
      (by decide)).1 [8],
   (C7_first_insert_wins (cacheEmplace emptyCache ⟨1, 2, 3⟩ [7]) ⟨1, 2, 3⟩ [7]
      (by decide)).2 [(⟨1, 2, 3⟩, [8])]⟩

/-!
## C2: white fallback on fetch/decode failure, and its caching
-/

/-- C2: when the byte fetch fails, or the fetched bytes fail to decode,
`LoadAndDecodeTile` does not fail: it returns the opaque-white
`tileSize*tileSize*4` fallback buffer, caches it under the id, and a
repeated request is served from the cache with zero further fetches. -/
theorem C2_white_fallback (env : Env) (c : Cache) (tileX tileY zoom : ℤ)
    (ts : ℕ) (hmiss : c ⟨zoom, tileX, tileY⟩ = none)
    (hfail : ∀ raw, env.fetch ⟨zoom, tileX, tileY⟩ = some raw →
      env.decode raw = none) :
    (LoadAndDecodeTile env c tileX tileY zoom ts).1
        = List.replicate (ts * ts * 4) 255 ∧
    (LoadAndDecodeTile env c tileX tileY zoom ts).2.1 ⟨zoom, tileX, tileY⟩
        = some (List.replicate (ts * ts * 4) 255) ∧
    LoadAndDecodeTile env (LoadAndDecodeTile env c tileX tileY zoom ts).2.1
        tileX tileY zoom ts
      = (List.replicate (ts * ts * 4) 255,
         (LoadAndDecodeTile env c tileX tileY zoom ts).2.1, 0) := by
  have hpix : fetchDecodePixels env ⟨zoom, tileX, tileY⟩ ts
      = List.replicate (ts * ts * 4) 255 := by
    unfold fetchDecodePixels
    cases hf : env.fetch ⟨zoom, tileX, tileY⟩ with
    | none => rfl
    | some raw => simp [hfail raw hf]
  have h1 : LoadAndDecodeTile env c tileX tileY zoom ts
      = (List.replicate (ts * ts * 4) 255,
         cacheEmplace c ⟨zoom, tileX, tileY⟩ (List.replicate (ts * ts * 4) 255),
         1) := by
    simp [LoadAndDecodeTile, hmiss, hpix]
  have h2 : cacheEmplace c ⟨zoom, tileX, tileY⟩
      (List.replicate (ts * ts * 4) 255) ⟨zoom, tileX, tileY⟩
      = some (List.replicate (ts * ts * 4) 255) := by
    simp [cacheEmplace, hmiss]
  refine ⟨by rw [h1], by rw [h1]; exact h2, ?_⟩
  rw [h1]
  simp [LoadAndDecodeTile, h2]

/-- C2 witness: a fetch that always fails, on an empty cache, at
`tileSize = 1`. -/
theorem C2_white_fallback_witness :
    (LoadAndDecodeTile ⟨fun _ => none, fun _ => none⟩ emptyCache 0 0 1 1).1
        = List.replicate (1 * 1 * 4) 255 ∧
    (LoadAndDecodeTile ⟨fun _ => none, fun _ => none⟩ emptyCache 0 0 1 1).2.1
        ⟨1, 0, 0⟩ = some (List.replicate (1 * 1 * 4) 255) ∧
    LoadAndDecodeTile ⟨fun _ => none, fun _ => none⟩
        (LoadAndDecodeTile ⟨fun _ => none, fun _ => none⟩ emptyCache 0 0 1 1).2.1
        0 0 1 1
      = (List.replicate (1 * 1 * 4) 255,
         (LoadAndDecodeTile ⟨fun _ => none, fun _ => none⟩ emptyCache 0 0 1 1).2.1,
         0) :=
  C2_white_fallback ⟨fun _ => none, fun _ => none⟩ emptyCache 0 0 1 1 rfl
    (fun _ h => nomatch h)

/-!
## C3: the decoded buffer is cached and returned at whatever size the
decoder reports
-/

/-- C3 (failing input): a tile whose bytes decode to a 1×1 image makes
`LoadAndDecodeTile` return — and cache — a 4-byte buffer, not the
`tileSize*tileSize*4 = 262144`-byte square buffer the spec's TileImage
data model requires (the compositor then reads that buffer at indices up
to `(tileSize*tileSize)*4 - 1`, far out of bounds). -/
theorem C3_decode_size_bug :
    (LoadAndDecodeTile
        ⟨fun _ => some [9], fun _ => some (1, 1, [10, 20, 30, 40])⟩
        emptyCache 0 0 1 256).1.length = 4 ∧
    (LoadAndDecodeTile
        ⟨fun _ => some [9], fun _ => some (1, 1, [10, 20, 30, 40])⟩
        emptyCache 0 0 1 256).2.1 ⟨1, 0, 0⟩ = some [10, 20, 30, 40] ∧
    (LoadAndDecodeTile
        ⟨fun _ => some [9], fun _ => some (1, 1, [10, 20, 30, 40])⟩
        emptyCache 0 0 1 256).1.length ≠ 256 * 256 * 4 := by
  refine ⟨rfl, by decide, by decide⟩

/-!
## C1: placement offset versus the spec's floor-modulo formula
-/

/-- C1 (counterexample): at `topLeftX = -100`, `tileSize = 256` the code's
offset (`fmod` truncates toward zero) is `+100`, while the spec's
floor-modulo formula gives `-156`. -/
theorem C1_offset_counterexample :
    tileOffset 0 (-100) 256 ≠ specTileOffset 0 (-100) 256 ∧
    tileOffset 0 (-100) 256 = 100 ∧
    specTileOffset 0 (-100) 256 = -156 := by
  have h2 : tileOffset 0 (-100) 256 = 100 := by
    unfold tileOffset fmodQ ratTrunc
    norm_num
    rw [show ⌈(-(25/64) : ℚ)⌉ = (0:ℤ) from by norm_num]
    norm_num
  have h3 : specTileOffset 0 (-100) 256 = -156 := by
    unfold specTileOffset floorModQ
    norm_num
  exact ⟨by rw [h2, h3]; decide, h2, h3⟩

/-- C1 (amended): for a *nonnegative* `topLeft` the code's offset
`(int)floor(t*tileSize - fmod(topLeft, tileSize))` coincides with the
spec's floor-modulo formula, and whenever `topLeft mod tileSize = 0`
(floor-division modulo) the first tile column/row has offset exactly 0;
for negative non-multiple `topLeft` the two differ
(`C1_offset_counterexample`). -/
theorem C1_offset_formula (t : ℕ) (tl : ℚ) (ts : ℕ) :
    (0 ≤ tl → tileOffset t tl ts = specTileOffset t tl ts) ∧
    (floorModQ tl (ts : ℚ) = 0 → tileOffset 0 tl ts = 0) := by
  constructor
  · intro h
    have htr : ratTrunc (tl / (ts : ℚ)) = ⌊tl / (ts : ℚ)⌋ := by
      unfold ratTrunc
      exact if_pos (div_nonneg h (Nat.cast_nonneg ts))
    simp only [tileOffset, specTileOffset, fmodQ, floorModQ, htr]
  · intro h
    by_cases hts : (ts : ℚ) = 0
    · have htl : tl = 0 := by simpa [floorModQ, hts] using h
      simp [tileOffset, fmodQ, htl, hts]
    · have h0 : tl - (ts : ℚ) * (⌊tl / (ts : ℚ)⌋ : ℚ) = 0 := by
        simpa [floorModQ] using h
      have h2 : tl = (ts : ℚ) * (⌊tl / (ts : ℚ)⌋ : ℚ) := by linarith
      have h3 : tl / (ts : ℚ) = ((⌊tl / (ts : ℚ)⌋ : ℤ) : ℚ) := by
        rw [h2]
        field_simp
      have hf : fmodQ tl (ts : ℚ) = 0 := by
        unfold fmodQ
        rw [h3, ratTrunc_intCast]
        exact h0
      simp [tileOffset, hf]

/-- C1 witness: `topLeft = 4`, `tileSize = 2`: equal offsets, and the
boundary case gives offset 0. -/
theorem C1_offset_formula_witness :
    (0 : ℚ) ≤ 4 ∧ floorModQ 4 (2 : ℚ) = 0 ∧
    tileOffset 1 4 2 = specTileOffset 1 4 2 ∧ tileOffset 0 4 2 = 0 :=
  ⟨by norm_num, by norm_num [floorModQ],
   (C1_offset_formula 1 4 2).1 (by norm_num),
   (C1_offset_formula 1 4 2).2 (by norm_num [floorModQ])⟩

/-!
## C4: the blit clips to the output raster
-/

/-- C4: the blit writes only to destination pixels inside
`[0, W) × [0, H)` (and only inside the tile's placement rectangle): the
buffer keeps its size, any byte of a pixel outside the tile's placement
rectangle is unchanged, and a tile whose placement rectangle misses
`[0, W) × [0, H)` entirely contributes no writes at all. -/
theorem C4_blit_clips (buf : List ℕ) (W H : ℕ) (pixels : List ℕ) (ts : ℕ)
    (offX offY : ℤ) :
    (blitTile buf W H pixels ts offX offY).length = buf.length ∧
    (∀ x y c : ℕ, x < W → c < 4 →
      ¬(offX ≤ (x : ℤ) ∧ (x : ℤ) < offX + (ts : ℤ) ∧
        offY ≤ (y : ℤ) ∧ (y : ℤ) < offY + (ts : ℤ)) →
      (blitTile buf W H pixels ts offX offY).getD ((y * W + x) * 4 + c) 0
        = buf.getD ((y * W + x) * 4 + c) 0) ∧
    ((offX + (ts : ℤ) ≤ 0 ∨ (W : ℤ) ≤ offX ∨
        offY + (ts : ℤ) ≤ 0 ∨ (H : ℤ) ≤ offY) →
      blitTile buf W H pixels ts offX offY = buf) := by
  refine ⟨blitTile_length buf W H pixels ts offX offY,
    fun x y c hx hc hmiss =>
      blitTile_getD_skip buf W H pixels ts offX offY x y c hx hc hmiss, ?_⟩
  intro hout
  unfold blitTile
  apply foldl_range_view_skip (blitTileStep W H pixels ts offX offY)
    (fun a => a) (fun _ _ => True) ts buf trivial (fun _ _ _ _ => trivial)
  intro a j hj _
  simp only [blitTileStep]
  by_cases hg : offY + (j : ℤ) < 0 ∨ (H : ℤ) ≤ offY + (j : ℤ)
  · simp only [hg, if_true]
  · rw [if_neg hg]
    push_neg at hg
    -- the row survives the Y guard, so the X range must be fully outside
    have hxout : ∀ i : ℕ, i < ts → offX + (i : ℤ) < 0 ∨ (W : ℤ) ≤ offX + (i : ℤ) := by
      intro i hi
      rcases hout with h | h | h | h
      · left; omega
      · right; omega
      · omega
      · omega
    apply foldl_range_view_skip (blitRowStep W pixels ts offX (offY + (j : ℤ)) j)
      (fun a => a) (fun _ _ => True) ts a trivial (fun _ _ _ _ => trivial)
    intro b i hi _
    simp only [blitRowStep]
    rw [if_pos (hxout i hi)]

/-- C4 witness: a 2×2 tile placed fully left of a 1×1 raster writes
nothing, and pixel-level skipping holds at a concrete uncovered pixel. -/
theorem C4_blit_clips_witness :
    (blitTile [1, 2, 3, 4] 1 1 [9, 9, 9, 9] 2 5 0).length = 4 ∧
    (blitTile [1, 2, 3, 4] 1 1 [9, 9, 9, 9] 2 5 0).getD 0 0
      = [1, 2, 3, 4].getD 0 0 ∧
    blitTile [1, 2, 3, 4] 1 1 [9, 9, 9, 9] 2 (-2) 0 = [1, 2, 3, 4] :=
  ⟨(C4_blit_clips [1, 2, 3, 4] 1 1 [9, 9, 9, 9] 2 5 0).1,
   (C4_blit_clips [1, 2, 3, 4] 1 1 [9, 9, 9, 9] 2 5 0).2.1 0 0 0
     (by norm_num) (by norm_num) (by norm_num),
   (C4_blit_clips [1, 2, 3, 4] 1 1 [9, 9, 9, 9] 2 (-2) 0).2.2
     (by norm_num)⟩

/-!
## C6: duplicate fetches under concurrency
-/

/-- One interleaving step keeps thread A fetch-free once the key is
cached and A has not yet passed a lookup miss. -/
theorem threadStep_A_protected (env : Env) (k : TileKey) (ts : ℕ)
    (who : Bool) (s : DupState) (h1 : s.fetchedA = false)
    (h2 : ∃ v, s.cache k = some v) (h3 : s.pcA = 0 ∨ s.pcA = 2) :
    (threadStep env k ts who s).fetchedA = false ∧
    (∃ v, (threadStep env k ts who s).cache k = some v) ∧
    ((threadStep env k ts who s).pcA = 0 ∨ (threadStep env k ts who s).pcA = 2) := by
  obtain ⟨v, hv⟩ := h2
  cases who with
  | true =>
    rcases h3 with h | h
    · simp [threadStep, h, hv, h1]
    · simp [threadStep, h, hv, h1]
  | false =>
    by_cases hp0 : s.pcB = 0
    · simp only [threadStep, Bool.false_eq_true, if_false, hp0, if_pos rfl]
      rw [hv]
      exact ⟨h1, ⟨v, hv⟩, h3⟩
    · by_cases hp1 : s.pcB = 1
      · simp only [threadStep, Bool.false_eq_true, if_false, hp1, hp0,
          if_neg hp0, if_pos rfl]
        exact ⟨h1, ⟨v, cacheEmplace_preserves s.cache k _ k v hv⟩, h3⟩
      · simp only [threadStep, Bool.false_eq_true, if_false, if_neg hp0,
          if_neg hp1]
        exact ⟨h1, ⟨v, hv⟩, h3⟩

/-- C6 (amended): in the interleaving model of two concurrent
`LoadAndDecodeTile` calls for the same TileId, a call whose cache lookup
happens after an insert for that id has completed performs no network
fetch, whatever the rest of the schedule does.  (Two concurrent
*first-time* calls may still both fetch: `C6_race_counterexample`.) -/
theorem C6_no_refetch_after_insert (env : Env) (k : TileKey) (ts : ℕ) :
    ∀ (trace : List Bool) (s : DupState), s.fetchedA = false →
      (∃ v, s.cache k = some v) → (s.pcA = 0 ∨ s.pcA = 2) →
      (runTrace env k ts s trace).fetchedA = false := by
  intro trace
  induction trace with
  | nil => intro s h1 _ _; exact h1
  | cons who rest ih =>
    intro s h1 h2 h3
    have hs := threadStep_A_protected env k ts who s h1 h2 h3
    have hr : runTrace env k ts s (who :: rest)
        = runTrace env k ts (threadStep env k ts who s) rest := by
      simp [runTrace]
    rw [hr]
    exact ih _ hs.1 hs.2.1 hs.2.2

/-- C6 witness: with tile `⟨1,0,0⟩` already inserted, thread A never
fetches in the schedule A, B, B. -/
theorem C6_no_refetch_after_insert_witness :
    (runTrace ⟨fun _ => none, fun _ => none⟩ ⟨1, 0, 0⟩ 1
      ⟨cacheEmplace emptyCache ⟨1, 0, 0⟩ [0], 0, 0, false, false⟩
      [true, false, false]).fetchedA = false :=
  C6_no_refetch_after_insert ⟨fun _ => none, fun _ => none⟩ ⟨1, 0, 0⟩ 1
    [true, false, false] _ rfl ⟨[0], by decide⟩ (Or.inl rfl)

/-- C6 (counterexample): both threads' lookups can miss before either
insert, after which both perform the network fetch-and-decode for the
same TileId: the claimed system-wide at-most-one-in-flight invariant
fails in the schedule A-lookup, B-lookup, A-fetch, B-fetch. -/
theorem C6_race_counterexample :
    (runTrace ⟨fun _ => none, fun _ => none⟩ ⟨1, 0, 0⟩ 1
      ⟨emptyCache, 0, 0, false, false⟩ [true, false, true, false]).fetchedA
        = true ∧
    (runTrace ⟨fun _ => none, fun _ => none⟩ ⟨1, 0, 0⟩ 1
      ⟨emptyCache, 0, 0, false, false⟩ [true, false, true, false]).fetchedB
        = true := by
  constructor <;> rfl

/-!
## C9: monotonicity of the Web Mercator projection
-/

theorem neg_one_lt_sin (x : ℝ)
    (hx : x ∈ Set.Ioo (-(Real.pi / 2)) (Real.pi / 2)) : -1 < Real.sin x := by
  have hpi := Real.pi_pos
  calc (-1 : ℝ) = Real.sin (-(Real.pi / 2)) := by
        rw [Real.sin_neg, Real.sin_pi_div_two]
    _ < Real.sin x :=
        Real.strictMonoOn_sin (Set.mem_Icc.mpr ⟨le_refl _, by linarith⟩)
          (Set.mem_Icc.mpr ⟨hx.1.le, hx.2.le⟩) hx.1

/-- `tan θ + 1/cos θ` is strictly increasing on `(-π/2, π/2)`. -/
theorem mercArg_strictMonoOn :
    StrictMonoOn (fun t : ℝ => Real.tan t + 1 / Real.cos t)
      (Set.Ioo (-(Real.pi / 2)) (Real.pi / 2)) := by
  apply strictMonoOn_of_deriv_pos (convex_Ioo _ _)
  · intro x hx
    have hcos := (Real.cos_pos_of_mem_Ioo hx).ne'
    exact ((Real.continuousAt_tan.2 hcos).add
      (continuousAt_const.div Real.continuous_cos.continuousAt hcos)).continuousWithinAt
  · intro x hx
    rw [interior_Ioo] at hx
    have hcos := Real.cos_pos_of_mem_Ioo hx
    have h1 : HasDerivAt Real.tan (1 / Real.cos x ^ 2) x :=
      Real.hasDerivAt_tan hcos.ne'
    have h2 : HasDerivAt (fun y : ℝ => (Real.cos y)⁻¹)
        (-(-Real.sin x) / Real.cos x ^ 2) x :=
      (Real.hasDerivAt_cos x).inv hcos.ne'
    have h3 : HasDerivAt (fun y : ℝ => Real.tan y + 1 / Real.cos y)
        (1 / Real.cos x ^ 2 + -(-Real.sin x) / Real.cos x ^ 2) x := by
      simpa [one_div] using h1.add h2
    rw [h3.deriv]
    have hsin := neg_one_lt_sin x hx
    have h4 : 1 / Real.cos x ^ 2 + -(-Real.sin x) / Real.cos x ^ 2
        = (1 + Real.sin x) / Real.cos x ^ 2 := by ring
    rw [h4]
    exact div_pos (by linarith) (by positivity)

/-- `tan θ + 1/cos θ` is positive on `(-π/2, π/2)`. -/
theorem mercArg_pos (x : ℝ)
    (hx : x ∈ Set.Ioo (-(Real.pi / 2)) (Real.pi / 2)) :
    0 < Real.tan x + 1 / Real.cos x := by
  have hcos := Real.cos_pos_of_mem_Ioo hx
  have hsin := neg_one_lt_sin x hx
  rw [Real.tan_eq_sin_div_cos, div_add_div_same]
  exact div_pos (by linarith) hcos

/-- Latitudes strictly inside `(-85, 85)` give Mercator-valid radians. -/
theorem latRad_mem (lat : ℝ) (h1 : -85 < lat) (h2 : lat < 85) :
    lat * Real.pi / 180 ∈ Set.Ioo (-(Real.pi / 2)) (Real.pi / 2) := by
  have hpi := Real.pi_pos
  constructor
  · nlinarith [mul_pos (show (0 : ℝ) < lat + 90 by linarith) hpi]
  · nlinarith [mul_pos (show (0 : ℝ) < 90 - lat by linarith) hpi]

/-- C9: for latitudes in `(-85, 85)` and zoom in `[1, 19]`, the forward
Web Mercator projection is strictly monotonic: global pixel X strictly
increases with longitude and global pixel Y strictly decreases with
latitude (north is up). -/
theorem C9_mercator_monotone (zoom tileSize : ℕ) (hts : 0 < tileSize)
    (_hz1 : 1 ≤ zoom) (_hz2 : zoom ≤ 19)
    (lon1 lon2 lat1 lat2 : ℝ) (hlon : lon1 < lon2)
    (h1 : -85 < lat1) (h12 : lat1 < lat2) (h2 : lat2 < 85) :
    geoPixelX lon1 zoom tileSize < geoPixelX lon2 zoom tileSize ∧
    geoPixelY lat2 zoom tileSize < geoPixelY lat1 zoom tileSize := by
  have hpow : (0 : ℝ) < 2 ^ zoom := by positivity
  have htsR : (0 : ℝ) < (tileSize : ℝ) := by exact_mod_cast hts
  constructor
  · unfold geoPixelX
    exact mul_lt_mul_of_pos_right
      (mul_lt_mul_of_pos_right (by linarith) hpow) htsR
  · unfold geoPixelY
    have hm1 := latRad_mem lat1 h1 (by linarith)
    have hm2 := latRad_mem lat2 (by linarith) h2
    have hpi := Real.pi_pos
    have hθ : lat1 * Real.pi / 180 < lat2 * Real.pi / 180 := by
      have := mul_lt_mul_of_pos_right h12 hpi
      linarith
    have harg : Real.tan (lat1 * Real.pi / 180) + 1 / Real.cos (lat1 * Real.pi / 180)
        < Real.tan (lat2 * Real.pi / 180) + 1 / Real.cos (lat2 * Real.pi / 180) :=
      mercArg_strictMonoOn hm1 hm2 hθ
    have hlog := Real.log_lt_log (mercArg_pos _ hm1) harg
    apply mul_lt_mul_of_pos_right (mul_lt_mul_of_pos_right ?_ hpow) htsR
    have h5 : Real.log (Real.tan (lat1 * Real.pi / 180) + 1 / Real.cos (lat1 * Real.pi / 180))
          / Real.pi
        < Real.log (Real.tan (lat2 * Real.pi / 180) + 1 / Real.cos (lat2 * Real.pi / 180))
          / Real.pi := by
      rw [div_eq_mul_inv, div_eq_mul_inv]
      exact mul_lt_mul_of_pos_right hlog (by positivity)
    linarith
/-- C9 witness: at zoom 1, tileSize 256, X is larger at lon 1 than at
lon −1, and Y is smaller at lat 1 than at lat 0. -/
theorem C9_mercator_monotone_witness :
    geoPixelX (-1) 1 256 < geoPixelX 1 1 256 ∧
    geoPixelY 1 1 256 < geoPixelY 0 1 256 :=
  C9_mercator_monotone 1 256 (by norm_num) (by norm_num) (by norm_num)
    (-1) 1 0 1 (by norm_num) (by norm_num) (by norm_num) (by norm_num)

/-!
## C5: warm-cache idempotence of the compositor
-/

/-- A cache hit returns the cached image, leaves the cache unchanged and
performs no fetch (`src/edit.cpp` lines 96–101). -/
theorem LoadAndDecodeTile_hit (env : Env) (c : Cache) (tileX tileY zoom : ℤ)
    (ts : ℕ) (v : List ℕ) (hv : c ⟨zoom, tileX, tileY⟩ = some v) :
    LoadAndDecodeTile env c tileX tileY zoom ts = (v, c, 0) := by
  simp [LoadAndDecodeTile, hv]

/-- C5: with a warm cache (an entry for every tile id of the request's
grid), a composite call leaves the cache unchanged and performs zero
network fetches, so calling it twice with identical arguments produces
byte-identical rasters and the second call performs zero fetches. -/
theorem C5_warm_cache_idempotent (env : Env) (c : Cache) (W H : ℕ)
    (cX cY : ℚ) (zoom : ℤ) (ts : ℕ)
    (hwarm : ∀ tx : ℕ, tx < numTilesOf (topLeftOf cX W) W ts →
      ∀ ty : ℕ, ty < numTilesOf (topLeftOf cY H) H ts →
      (c ⟨zoom, startTileOf (topLeftOf cX W) ts + tx,
            startTileOf (topLeftOf cY H) ts + ty⟩).isSome = true) :
    (CompositeMapEdit env c W H cX cY zoom ts).2.1 = c ∧
    (CompositeMapEdit env c W H cX cY zoom ts).2.2 = 0 ∧
    (CompositeMapEdit env (CompositeMapEdit env c W H cX cY zoom ts).2.1
        W H cX cY zoom ts).1
      = (CompositeMapEdit env c W H cX cY zoom ts).1 ∧
    (CompositeMapEdit env (CompositeMapEdit env c W H cX cY zoom ts).2.1
        W H cX cY zoom ts).2.2 = 0 := by
  have hstep : ∀ (st : List ℕ × Cache × ℕ) (idx : ℕ),
      idx < numTilesOf (topLeftOf cX W) W ts
        * numTilesOf (topLeftOf cY H) H ts →
      st.2.1 = c ∧ st.2.2 = 0 →
      (LoadAndDecodeTile env st.2.1
          (startTileOf (topLeftOf cX W) ts
            + ((idx % numTilesOf (topLeftOf cX W) W ts : ℕ) : ℤ))
          (startTileOf (topLeftOf cY H) ts
            + ((idx / numTilesOf (topLeftOf cX W) W ts : ℕ) : ℤ))
          zoom ts).2.1 = c ∧
      st.2.2 + (LoadAndDecodeTile env st.2.1
          (startTileOf (topLeftOf cX W) ts
            + ((idx % numTilesOf (topLeftOf cX W) W ts : ℕ) : ℤ))
          (startTileOf (topLeftOf cY H) ts
            + ((idx / numTilesOf (topLeftOf cX W) W ts : ℕ) : ℤ))
          zoom ts).2.2 = 0 := by
    intro st idx hidx hst
    have hX : 0 < numTilesOf (topLeftOf cX W) W ts := by
      by_contra hX0
      rw [Nat.eq_zero_of_not_pos hX0] at hidx
      simp at hidx
    have htx : idx % numTilesOf (topLeftOf cX W) W ts
        < numTilesOf (topLeftOf cX W) W ts := Nat.mod_lt idx hX
    have hty : idx / numTilesOf (topLeftOf cX W) W ts
        < numTilesOf (topLeftOf cY H) H ts := by
      rw [Nat.div_lt_iff_lt_mul hX]
      rw [Nat.mul_comm] at hidx
      exact hidx
    obtain ⟨v, hv⟩ := Option.isSome_iff_exists.mp (hwarm _ htx _ hty)
    rw [hst.1]
    rw [LoadAndDecodeTile_hit env c _ _ zoom ts v hv]
    exact ⟨rfl, by simp [hst.2]⟩
  have hInv := foldl_range_invariant
    (compositeStep env W H cX cY zoom ts)
    (fun st _ => st.2.1 = c ∧ st.2.2 = 0)
    (numTilesOf (topLeftOf cX W) W ts * numTilesOf (topLeftOf cY H) H ts)
    (List.replicate (W * H * 4) 255, c, 0) ⟨rfl, rfl⟩
    (fun st idx hidx hst => hstep st idx hidx hst)
  have hdef : CompositeMapEdit env c W H cX cY zoom ts
      = (List.range (numTilesOf (topLeftOf cX W) W ts
          * numTilesOf (topLeftOf cY H) H ts)).foldl
        (compositeStep env W H cX cY zoom ts)
        (List.replicate (W * H * 4) 255, c, 0) := rfl
  rw [← hdef] at hInv
  refine ⟨hInv.1, hInv.2, ?_, ?_⟩
  · rw [hInv.1]
  · rw [hInv.1]
    exact hInv.2

/-- The warm cache used in the C5 witness: an entry for every tile of the
2×2 grid of the `W = H = 1`, `center = (1/2, 1/2)`, `tileSize = 1`
request at zoom 7. -/
def warmCacheC5 : Cache := fun k =>
  if k.z = 7 ∧ 0 ≤ k.x ∧ k.x ≤ 1 ∧ 0 ≤ k.y ∧ k.y ≤ 1 then
    some [1, 2, 3, 4]
  else none

/-- C5 witness: on the concrete warm-cache request the cache is unchanged,
no fetch happens, and the repeated call returns the identical raster with
zero fetches. -/
theorem C5_warm_cache_idempotent_witness :
    (CompositeMapEdit ⟨fun _ => none, fun _ => none⟩ warmCacheC5 1 1
        (1/2) (1/2) 7 1).2.1 = warmCacheC5 ∧
    (CompositeMapEdit ⟨fun _ => none, fun _ => none⟩ warmCacheC5 1 1
        (1/2) (1/2) 7 1).2.2 = 0 ∧
    (CompositeMapEdit ⟨fun _ => none, fun _ => none⟩
        (CompositeMapEdit ⟨fun _ => none, fun _ => none⟩ warmCacheC5 1 1
          (1/2) (1/2) 7 1).2.1 1 1 (1/2) (1/2) 7 1).1
      = (CompositeMapEdit ⟨fun _ => none, fun _ => none⟩ warmCacheC5 1 1
          (1/2) (1/2) 7 1).1 ∧
    (CompositeMapEdit ⟨fun _ => none, fun _ => none⟩
        (CompositeMapEdit ⟨fun _ => none, fun _ => none⟩ warmCacheC5 1 1
          (1/2) (1/2) 7 1).2.1 1 1 (1/2) (1/2) 7 1).2.2 = 0 :=
  C5_warm_cache_idempotent ⟨fun _ => none, fun _ => none⟩ warmCacheC5 1 1
    (1/2) (1/2) 7 1 (by with_unfolding_all decide)

/-!
## C8: totality, exact size, white background
-/

theorem getD_replicate_of_lt (n a i : ℕ) (h : i < n) :
    (List.replicate n a).getD i 0 = a := by
  rw [List.getD_eq_getElem?_getD, List.getElem?_replicate, if_pos h]
  rfl

theorem pixel_byte_lt (W H x y cc : ℕ) (hx : x < W) (hy : y < H)
    (hc : cc < 4) : (y * W + x) * 4 + cc < W * H * 4 := by
  have h1 : (y + 1) * W ≤ H * W := Nat.mul_le_mul_right W hy
  rw [Nat.succ_mul] at h1
  have h2 : y * W + x < W * H := by
    have := Nat.mul_comm H W
    omega
  omega

/-- Blitting an all-white tile into an all-white raster keeps every byte
255. -/
theorem blitTile_white (buf : List ℕ) (W H L ts : ℕ) (offX offY : ℤ)
    (hlen : buf.length = L) (hwhite : ∀ i, i < L → buf.getD i 0 = 255) :
    (blitTile buf W H (List.replicate (ts * ts * 4) 255) ts offX offY).length
        = L ∧
    ∀ i, i < L →
      (blitTile buf W H (List.replicate (ts * ts * 4) 255) ts offX offY).getD
        i 0 = 255 := by
  apply foldl_range_invariant (blitTileStep W H (List.replicate (ts*ts*4) 255) ts offX offY)
    (fun a _ => a.length = L ∧ ∀ i, i < L → a.getD i 0 = 255)
    ts buf ⟨hlen, hwhite⟩
  intro a j hj ha
  simp only [blitTileStep]
  by_cases hg : offY + (j : ℤ) < 0 ∨ (H : ℤ) ≤ offY + (j : ℤ)
  · simp only [hg, if_true]
    exact ha
  · rw [if_neg hg]
    apply foldl_range_invariant
      (blitRowStep W (List.replicate (ts*ts*4) 255) ts offX (offY + (j:ℤ)) j)
      (fun b _ => b.length = L ∧ ∀ i, i < L → b.getD i 0 = 255) ts a ha
    intro b i hi hb
    simp only [blitRowStep]
    by_cases hgx : offX + (i : ℤ) < 0 ∨ (W : ℤ) ≤ offX + (i : ℤ)
    · simp only [hgx, if_true]
      exact hb
    · rw [if_neg hgx]
      constructor
      · rw [copy4_length]; exact hb.1
      · intro m hm
        set d := (((offY + (j:ℤ)) * (W:ℤ) + (offX + (i:ℤ))) * 4).toNat with hd
        by_cases hwin : d ≤ m ∧ m < d + 4
        · have hc4 : m - d < 4 := by omega
          have hmd : m = d + (m - d) := by omega
          rw [hmd, copy4_getD_inside b d (List.replicate (ts*ts*4) 255)
            ((j * ts + i) * 4) (m - d) hc4 (by rw [hb.1]; omega)]
          apply getD_replicate_of_lt
          have h1 : j * ts + i < ts * ts := by
            have h2 : (j + 1) * ts ≤ ts * ts := Nat.mul_le_mul_right ts hj
            rw [Nat.succ_mul] at h2
            omega
          omega
        · rw [copy4_getD_outside b d (List.replicate (ts*ts*4) 255)
            ((j * ts + i) * 4) m (by omega)]
          exact hb.2 m hm

/-- When every fetch fails and the cache holds only white fallbacks,
`LoadAndDecodeTile` yields the white tile and keeps the cache
none-or-white. -/
theorem LoadAndDecodeTile_allfail (env : Env)
    (hfetch : ∀ k, env.fetch k = none) (c : Cache) (tileX tileY zoom : ℤ)
    (ts : ℕ)
    (hcache : ∀ k, c k = none ∨ c k = some (List.replicate (ts*ts*4) 255)) :
    (LoadAndDecodeTile env c tileX tileY zoom ts).1
        = List.replicate (ts*ts*4) 255 ∧
    ∀ k, (LoadAndDecodeTile env c tileX tileY zoom ts).2.1 k = none ∨
      (LoadAndDecodeTile env c tileX tileY zoom ts).2.1 k
        = some (List.replicate (ts*ts*4) 255) := by
  have hpix : fetchDecodePixels env ⟨zoom, tileX, tileY⟩ ts
      = List.replicate (ts*ts*4) 255 := by
    unfold fetchDecodePixels
    rw [hfetch]
  rcases hcache ⟨zoom, tileX, tileY⟩ with h | h
  · have h1 : LoadAndDecodeTile env c tileX tileY zoom ts
        = (List.replicate (ts*ts*4) 255,
           cacheEmplace c ⟨zoom, tileX, tileY⟩ (List.replicate (ts*ts*4) 255),
           1) := by
      simp [LoadAndDecodeTile, h, hpix]
    rw [h1]
    refine ⟨rfl, fun k => ?_⟩
    unfold cacheEmplace
    rw [h]
    by_cases hk : k = ⟨zoom, tileX, tileY⟩
    · right; simp [hk]
    · simp only [if_neg hk]
      exact hcache k
  · have h1 : LoadAndDecodeTile env c tileX tileY zoom ts
        = (List.replicate (ts*ts*4) 255, c, 0) := by
      simp [LoadAndDecodeTile, h]
    rw [h1]
    exact ⟨rfl, hcache⟩

/-- C8: a composite call always returns a raster of exactly
`outputWidth*outputHeight*4` bytes; pixels covered by no grid tile's
placement rectangle stay opaque white (255); and when every fetch fails
(worst case: every tile is the blank fallback) on a cache with no
entries, the output is all-white — byte value 255 everywhere.  (The call
is a total function: it never fails.) -/
theorem C8_composite_total (env : Env) (c : Cache) (W H : ℕ) (cX cY : ℚ)
    (zoom : ℤ) (ts : ℕ) (_hW : 0 < W) (_hH : 0 < H) :
    (CompositeMapEdit env c W H cX cY zoom ts).1.length = W * H * 4 ∧
    (∀ x y cc : ℕ, x < W → y < H → cc < 4 →
      (∀ tx ty : ℕ, tx < numTilesOf (topLeftOf cX W) W ts →
        ty < numTilesOf (topLeftOf cY H) H ts →
        ¬(tileOffset tx (topLeftOf cX W) ts ≤ (x : ℤ) ∧
          (x : ℤ) < tileOffset tx (topLeftOf cX W) ts + (ts : ℤ) ∧
          tileOffset ty (topLeftOf cY H) ts ≤ (y : ℤ) ∧
          (y : ℤ) < tileOffset ty (topLeftOf cY H) ts + (ts : ℤ))) →
      (CompositeMapEdit env c W H cX cY zoom ts).1.getD
        ((y * W + x) * 4 + cc) 0 = 255) ∧
    ((∀ k, env.fetch k = none) → (∀ k, c k = none) →
      ∀ i, i < W * H * 4 →
      (CompositeMapEdit env c W H cX cY zoom ts).1.getD i 0 = 255) := by
  have hdef : CompositeMapEdit env c W H cX cY zoom ts
      = (List.range (numTilesOf (topLeftOf cX W) W ts
          * numTilesOf (topLeftOf cY H) H ts)).foldl
        (compositeStep env W H cX cY zoom ts)
        (List.replicate (W * H * 4) 255, c, 0) := rfl
  have hlen : ∀ (st : List ℕ × Cache × ℕ) (idx : ℕ),
      (compositeStep env W H cX cY zoom ts st idx).1.length = st.1.length := by
    intro st idx
    simp only [compositeStep]
    exact blitTile_length _ _ _ _ _ _ _
  have hbound : ∀ idx : ℕ,
      idx < numTilesOf (topLeftOf cX W) W ts
        * numTilesOf (topLeftOf cY H) H ts →
      idx % numTilesOf (topLeftOf cX W) W ts
          < numTilesOf (topLeftOf cX W) W ts ∧
      idx / numTilesOf (topLeftOf cX W) W ts
          < numTilesOf (topLeftOf cY H) H ts := by
    intro idx hidx
    have hX : 0 < numTilesOf (topLeftOf cX W) W ts := by
      by_contra hX0
      rw [Nat.eq_zero_of_not_pos hX0] at hidx
      simp at hidx
    refine ⟨Nat.mod_lt idx hX, ?_⟩
    rw [Nat.div_lt_iff_lt_mul hX]
    rw [Nat.mul_comm] at hidx
    exact hidx
  have h1 : (CompositeMapEdit env c W H cX cY zoom ts).1.length = W * H * 4 := by
    rw [hdef]
    exact foldl_range_invariant (compositeStep env W H cX cY zoom ts)
      (fun st _ => st.1.length = W * H * 4)
      (numTilesOf (topLeftOf cX W) W ts * numTilesOf (topLeftOf cY H) H ts)
      (List.replicate (W * H * 4) 255, c, 0) (by simp)
      (fun st idx _ h => by
        show (compositeStep env W H cX cY zoom ts st idx).1.length = W * H * 4
        rw [hlen]
        exact h)
  refine ⟨h1, ?_, ?_⟩
  · intro x y cc hx hy hcc huncov
    rw [hdef]
    have hmain := foldl_range_invariant (compositeStep env W H cX cY zoom ts)
      (fun st _ => st.1.length = W * H * 4 ∧
        st.1.getD ((y * W + x) * 4 + cc) 0 = 255)
      (numTilesOf (topLeftOf cX W) W ts * numTilesOf (topLeftOf cY H) H ts)
      (List.replicate (W * H * 4) 255, c, 0)
      ⟨by simp, getD_replicate_of_lt _ _ _ (pixel_byte_lt W H x y cc hx hy hcc)⟩
      ?_
    · exact hmain.2
    intro st idx hidx hst
    refine ⟨by rw [hlen]; exact hst.1, ?_⟩
    simp only [compositeStep]
    rw [blitTile_getD_skip st.1 W H _ ts _ _ x y cc hx hcc
      (huncov _ _ (hbound idx hidx).1 (hbound idx hidx).2)]
    exact hst.2
  · intro hfetch hc0 i hi
    rw [hdef]
    have hmain := foldl_range_invariant (compositeStep env W H cX cY zoom ts)
      (fun st _ =>
        (st.1.length = W * H * 4 ∧ ∀ m, m < W * H * 4 → st.1.getD m 0 = 255) ∧
        ∀ k, st.2.1 k = none ∨
          st.2.1 k = some (List.replicate (ts * ts * 4) 255))
      (numTilesOf (topLeftOf cX W) W ts * numTilesOf (topLeftOf cY H) H ts)
      (List.replicate (W * H * 4) 255, c, 0)
      ⟨⟨by simp, fun m hm => getD_replicate_of_lt _ _ _ hm⟩,
       fun k => Or.inl (hc0 k)⟩
      ?_
    · exact hmain.1.2 i hi
    intro st idx hidx hst
    have hld := LoadAndDecodeTile_allfail env hfetch st.2.1
      (startTileOf (topLeftOf cX W) ts
        + ((idx % numTilesOf (topLeftOf cX W) W ts : ℕ) : ℤ))
      (startTileOf (topLeftOf cY H) ts
        + ((idx / numTilesOf (topLeftOf cX W) W ts : ℕ) : ℤ))
      zoom ts hst.2
    constructor
    · have hw := blitTile_white st.1 W H (W * H * 4) ts
        (tileOffset (idx % numTilesOf (topLeftOf cX W) W ts)
          (topLeftOf cX W) ts)
        (tileOffset (idx / numTilesOf (topLeftOf cX W) W ts)
          (topLeftOf cY H) ts) hst.1.1 hst.1.2
      simp only [compositeStep]
      rw [hld.1]
      exact hw
    · intro k
      simp only [compositeStep]
      exact hld.2 k

/-- C8 witness: the `composite(256,256, lat=0, lon=0, zoom=1,
tileSize=256)` scenario: the center projects to global pixel (256, 256),
the request covers a 2×2 tile grid starting at tile (0,0), and with every
fetch failing on an empty cache the raster is 256*256*4 bytes with byte
value 255 at the first and last positions (all-white by
`C8_composite_total`). -/
theorem C8_composite_total_witness :
    geoPixelX 0 1 256 = 256 ∧ geoPixelY 0 1 256 = 256 ∧
    numTilesOf (topLeftOf 256 256) 256 256 = 2 ∧
    startTileOf (topLeftOf 256 256) 256 = 0 ∧
    (CompositeMapEdit ⟨fun _ => none, fun _ => none⟩ emptyCache 256 256
        256 256 1 256).1.length = 256 * 256 * 4 ∧
    (CompositeMapEdit ⟨fun _ => none, fun _ => none⟩ emptyCache 256 256
        256 256 1 256).1.getD 0 0 = 255 ∧
    (CompositeMapEdit ⟨fun _ => none, fun _ => none⟩ emptyCache 256 256
        256 256 1 256).1.getD 262143 0 = 255 := by
  refine ⟨?_, ?_, ?_, ?_, ?_, ?_, ?_⟩
  · unfold geoPixelX
    norm_num
  · unfold geoPixelY
    norm_num [Real.tan_zero, Real.cos_zero, Real.log_one]
  · with_unfolding_all decide
  · with_unfolding_all decide
  · exact (C8_composite_total ⟨fun _ => none, fun _ => none⟩ emptyCache
      256 256 256 256 1 256 (by norm_num) (by norm_num)).1
  · exact (C8_composite_total ⟨fun _ => none, fun _ => none⟩ emptyCache
      256 256 256 256 1 256 (by norm_num) (by norm_num)).2.2
      (fun _ => rfl) (fun _ => rfl) 0 (by norm_num)
  · exact (C8_composite_total ⟨fun _ => none, fun _ => none⟩ emptyCache
      256 256 256 256 1 256 (by norm_num) (by norm_num)).2.2
      (fun _ => rfl) (fun _ => rfl) 262143 (by norm_num)

/-!
## C10: the per-tile compositor of `edit.cpp` versus the per-pixel
compositor of `c1.cpp`
-/

theorem startTileOf_natCast (a ts : ℕ) :
    startTileOf ((a : ℕ) : ℚ) ts = ((a / ts : ℕ) : ℤ) := by
  unfold startTileOf
  rw [Rat.floor_natCast_div_natCast]
  exact (Int.ofNat_tdiv a ts).symm

theorem endTileOf_natCast (a dim ts : ℕ) :
    endTileOf ((a : ℕ) : ℚ) dim ts = (((a + dim) / ts : ℕ) : ℤ) := by
  unfold endTileOf
  rw [show ((a : ℕ) : ℚ) + (dim : ℚ) = (((a + dim : ℕ)) : ℚ) by push_cast; ring]
  rw [Rat.floor_natCast_div_natCast]
  exact (Int.ofNat_tdiv (a + dim) ts).symm

theorem numTilesOf_natCast (a dim ts : ℕ) :
    numTilesOf ((a : ℕ) : ℚ) dim ts = (a + dim) / ts - a / ts + 1 := by
  unfold numTilesOf
  rw [startTileOf_natCast, endTileOf_natCast]
  have h : a / ts ≤ (a + dim) / ts :=
    Nat.div_le_div_right (Nat.le_add_right a dim)
  omega

theorem fmodQ_natCast (a ts : ℕ) :
    fmodQ ((a : ℕ) : ℚ) ((ts : ℕ) : ℚ) = ((a % ts : ℕ) : ℚ) := by
  unfold fmodQ ratTrunc
  rw [if_pos (by positivity)]
  rw [Rat.floor_natCast_div_natCast]
  rw [show ((a : ℤ) / (ts : ℤ) : ℤ) = ((a / ts : ℕ) : ℤ) from
    (Int.ofNat_tdiv a ts).symm]
  rw [show ((((a / ts : ℕ) : ℤ)) : ℚ) = ((a / ts : ℕ) : ℚ) from
    Int.cast_natCast _]
  have hd : ((ts * (a / ts) + a % ts : ℕ) : ℚ) = ((a : ℕ) : ℚ) := by
    exact_mod_cast congrArg (fun n : ℕ => ((n : ℕ) : ℚ)) (Nat.div_add_mod a ts)
  push_cast at hd
  linarith

theorem tileOffset_natCast (t a ts : ℕ) :
    tileOffset t ((a : ℕ) : ℚ) ts
      = (t : ℤ) * (ts : ℤ) - ((a % ts : ℕ) : ℤ) := by
  unfold tileOffset
  rw [fmodQ_natCast]
  generalize a % ts = r
  rw [show (t : ℚ) * (ts : ℚ) - ((r : ℕ) : ℚ)
      = (((t : ℤ) * (ts : ℤ) - ((r : ℕ) : ℤ) : ℤ) : ℚ) by push_cast; ring]
  exact Int.floor_intCast _

/-- The tile column covering output pixel `x` when the viewport's left
edge sits at the integer global coordinate `a`: its placement interval
contains `x`, it is the unique such column, it lies inside the grid, the
absolute tile index is `(a+x)/ts`, and the in-tile pixel is `(a+x)%ts`. -/
theorem axis_cover (a ts x dim : ℕ) (hts : 0 < ts) (hx : x < dim) :
    ((((x + a % ts) / ts : ℕ) : ℤ) * (ts : ℤ) - ((a % ts : ℕ) : ℤ) ≤ (x : ℤ) ∧
      (x : ℤ) < (((x + a % ts) / ts : ℕ) : ℤ) * (ts : ℤ)
        - ((a % ts : ℕ) : ℤ) + (ts : ℤ)) ∧
    a / ts + (x + a % ts) / ts = (a + x) / ts ∧
    ((x : ℤ) - ((((x + a % ts) / ts : ℕ) : ℤ) * (ts : ℤ) - ((a % ts : ℕ) : ℤ))
        = (((a + x) % ts : ℕ) : ℤ)) ∧
    (x + a % ts) / ts < (a + dim) / ts - a / ts + 1 ∧
    (∀ tx2 : ℕ, tx2 ≠ (x + a % ts) / ts →
      ¬((tx2 : ℤ) * (ts : ℤ) - ((a % ts : ℕ) : ℤ) ≤ (x : ℤ) ∧
        (x : ℤ) < (tx2 : ℤ) * (ts : ℤ) - ((a % ts : ℕ) : ℤ) + (ts : ℤ))) := by
  have e1 : (x + a % ts) / ts * ts + (x + a % ts) % ts = x + a % ts := by
    rw [Nat.mul_comm ((x + a % ts) / ts) ts]
    exact Nat.div_add_mod (x + a % ts) ts
  have e1' : (((x + a % ts) / ts : ℕ) : ℤ) * (ts : ℤ)
      + (((x + a % ts) % ts : ℕ) : ℤ) = (x : ℤ) + ((a % ts : ℕ) : ℤ) := by
    exact_mod_cast e1
  have e2 : (((x + a % ts) % ts : ℕ) : ℤ) < (ts : ℤ) := by
    exact_mod_cast Nat.mod_lt (x + a % ts) hts
  have e2n : (0 : ℤ) ≤ (((x + a % ts) % ts : ℕ) : ℤ) := Int.ofNat_nonneg _
  have hmem : (((x + a % ts) / ts : ℕ) : ℤ) * (ts : ℤ) - ((a % ts : ℕ) : ℤ)
        ≤ (x : ℤ) ∧
      (x : ℤ) < (((x + a % ts) / ts : ℕ) : ℤ) * (ts : ℤ)
        - ((a % ts : ℕ) : ℤ) + (ts : ℤ) :=
    ⟨by linarith, by linarith⟩
  have habs : a / ts + (x + a % ts) / ts = (a + x) / ts := by
    have e0 : ts * (a / ts) + a % ts = a := Nat.div_add_mod a ts
    have hsum : a + x
        = (x + a % ts) % ts + ts * (a / ts + (x + a % ts) / ts) := by
      have h4 : ts * (a / ts + (x + a % ts) / ts)
          = ts * (a / ts) + ts * ((x + a % ts) / ts) := by ring
      have h5 : ts * ((x + a % ts) / ts) = (x + a % ts) / ts * ts := by ring
      omega
    rw [show (a + x) / ts
        = ((x + a % ts) % ts + ts * (a / ts + (x + a % ts) / ts)) / ts by
          rw [← hsum]]
    rw [Nat.add_mul_div_left _ _ hts,
      Nat.div_eq_of_lt (Nat.mod_lt (x + a % ts) hts)]
    omega
  have hpix : (((a + x) % ts : ℕ) : ℤ) = (((x + a % ts) % ts : ℕ) : ℤ) := by
    have e0 : ts * (a / ts) + a % ts = a := Nat.div_add_mod a ts
    have hsum : a + x
        = (x + a % ts) % ts + ts * (a / ts + (x + a % ts) / ts) := by
      have h4 : ts * (a / ts + (x + a % ts) / ts)
          = ts * (a / ts) + ts * ((x + a % ts) / ts) := by ring
      have h5 : ts * ((x + a % ts) / ts) = (x + a % ts) / ts * ts := by ring
      omega
    rw [hsum, Nat.add_mul_mod_self_left,
      Nat.mod_eq_of_lt (Nat.mod_lt (x + a % ts) hts)]
  refine ⟨hmem, habs, by linarith [hpix], ?_, ?_⟩
  · have hmono : (a + x) / ts ≤ (a + dim) / ts :=
      Nat.div_le_div_right (by omega)
    omega
  · intro tx2 hne
    rintro ⟨hA, hB⟩
    rcases Nat.lt_or_ge tx2 ((x + a % ts) / ts) with hlt | hge
    · have h6 : (tx2 + 1) * ts ≤ (x + a % ts) / ts * ts :=
        Nat.mul_le_mul_right ts hlt
      have h6' : ((tx2 : ℤ) + 1) * (ts : ℤ)
          ≤ (((x + a % ts) / ts : ℕ) : ℤ) * (ts : ℤ) := by
        exact_mod_cast h6
      nlinarith [hmem.1]
    · have hgt : (x + a % ts) / ts < tx2 := by omega
      have h6 : ((x + a % ts) / ts + 1) * ts ≤ tx2 * ts :=
        Nat.mul_le_mul_right ts hgt
      have h6' : ((((x + a % ts) / ts : ℕ) : ℤ) + 1) * (ts : ℤ)
          ≤ (tx2 : ℤ) * (ts : ℤ) := by
        exact_mod_cast h6
      nlinarith [hmem.2]

/-- An `emplace` of one key does not affect lookups of other keys. -/
theorem cacheEmplace_lookup_ne (c : Cache) (kIns : TileKey) (v : List ℕ)
    (q : TileKey) (hne : q ≠ kIns) : cacheEmplace c kIns v q = c q := by
  unfold cacheEmplace
  cases c kIns with
  | some u => rfl
  | none => simp [hne]

/-- On a successful fetch-and-decode, `LoadTileImage` of `src/c1.cpp`
returns exactly the buffer that `LoadAndDecodeTile` of `src/edit.cpp`
assigns. -/
theorem LoadTileImage_eq_fetchDecode (env : Env) (k : TileKey) (ts : ℕ)
    (raw img : List ℕ) (hf : env.fetch k = some raw)
    (hd : env.decode raw = some (ts, ts, img)) :
    LoadTileImage env k = some (fetchDecodePixels env k ts) := by
  simp [LoadTileImage, fetchDecodePixels, hf, hd]

theorem byte_decompose (W H n : ℕ) (hn : n < W * H * 4) :
    ∃ x y cc : ℕ, x < W ∧ y < H ∧ cc < 4 ∧ n = (y * W + x) * 4 + cc := by
  have hW : 0 < W := by
    rcases Nat.eq_zero_or_pos W with h0 | h
    · rw [h0] at hn
      simp at hn
    · exact h
  refine ⟨(n / 4) % W, (n / 4) / W, n % 4, Nat.mod_lt _ hW, ?_,
    Nat.mod_lt _ (by norm_num), ?_⟩
  · have h4 : n / 4 < W * H := by
      rw [Nat.div_lt_iff_lt_mul (by norm_num : 0 < 4)]
      exact hn
    rw [Nat.div_lt_iff_lt_mul hW]
    rw [Nat.mul_comm H W]
    exact h4
  · have d1 := Nat.div_add_mod n 4
    have d2 := Nat.div_add_mod (n / 4) W
    have d2' : n / 4 / W * W + n / 4 % W = n / 4 := by
      rw [Nat.mul_comm] at d2
      exact d2
    rw [d2']
    omega

/-- The `c1.cpp` per-pixel loop step preserves the raster length. -/
theorem c1PixelStep_length (tileImages : ℕ → ℕ → Option (List ℕ)) (W : ℕ)
    (tlX tlY : ℚ) (sX sY : ℤ) (nX nY ts j : ℕ) (b : List ℕ) (i : ℕ) :
    (c1PixelStep tileImages W tlX tlY sX sY nX nY ts j b i).length
      = b.length := by
  simp only [c1PixelStep]
  split
  · split
    · rw [copy4_length]
    · rfl
  · rfl

theorem CompositeMapC1_length (env : Env) (W H : ℕ) (cX cY : ℚ)
    (zoom : ℤ) (ts : ℕ) :
    (CompositeMapC1 env W H cX cY zoom ts).length = W * H * 4 := by
  have hdef : CompositeMapC1 env W H cX cY zoom ts
      = (List.range H).foldl (fun buf j =>
          (List.range W).foldl
            (c1PixelStep
              (fun row col => LoadTileImage env
                ⟨zoom, startTileOf (topLeftOf cX W) ts + col,
                  startTileOf (topLeftOf cY H) ts + row⟩)
              W (topLeftOf cX W) (topLeftOf cY H)
              (startTileOf (topLeftOf cX W) ts)
              (startTileOf (topLeftOf cY H) ts)
              (numTilesOf (topLeftOf cX W) W ts)
              (numTilesOf (topLeftOf cY H) H ts) ts j) buf)
        (List.replicate (W * H * 4) 255) := rfl
  rw [hdef]
  refine foldl_range_invariant _
    (fun (buf : List ℕ) _ => buf.length = W * H * 4) H _ (by simp) ?_
  intro buf j _ hb
  refine foldl_range_invariant _
    (fun (b : List ℕ) _ => b.length = W * H * 4) W buf hb ?_
  intro b i _ hb2
  rw [c1PixelStep_length]
  exact hb2

/-- Pointwise value of the `edit.cpp` compositor: when output pixel
`(x, y)` lies in the placement rectangle of exactly the grid tile
`(tx0, ty0)` and the cache is cold on the grid, the raster byte equals
the corresponding byte of that tile's fetched-and-decoded buffer. -/
theorem CompositeMapEdit_getD_cover (env : Env) (c : Cache) (W H : ℕ)
    (cX cY : ℚ) (zoom : ℤ) (ts : ℕ)
    (x y cc : ℕ) (hx : x < W) (hy : y < H) (hcc : cc < 4)
    (tx0 ty0 : ℕ)
    (htx0 : tx0 < numTilesOf (topLeftOf cX W) W ts)
    (hty0 : ty0 < numTilesOf (topLeftOf cY H) H ts)
    (hinx : tileOffset tx0 (topLeftOf cX W) ts ≤ (x : ℤ) ∧
      (x : ℤ) < tileOffset tx0 (topLeftOf cX W) ts + (ts : ℤ))
    (hiny : tileOffset ty0 (topLeftOf cY H) ts ≤ (y : ℤ) ∧
      (y : ℤ) < tileOffset ty0 (topLeftOf cY H) ts + (ts : ℤ))
    (huniqx : ∀ t : ℕ, t ≠ tx0 →
      ¬(tileOffset t (topLeftOf cX W) ts ≤ (x : ℤ) ∧
        (x : ℤ) < tileOffset t (topLeftOf cX W) ts + (ts : ℤ)))
    (huniqy : ∀ t : ℕ, t ≠ ty0 →
      ¬(tileOffset t (topLeftOf cY H) ts ≤ (y : ℤ) ∧
        (y : ℤ) < tileOffset t (topLeftOf cY H) ts + (ts : ℤ)))
    (hcold : ∀ tx : ℕ, tx < numTilesOf (topLeftOf cX W) W ts →
      ∀ ty : ℕ, ty < numTilesOf (topLeftOf cY H) H ts →
      c ⟨zoom, startTileOf (topLeftOf cX W) ts + tx,
          startTileOf (topLeftOf cY H) ts + ty⟩ = none) :
    (CompositeMapEdit env c W H cX cY zoom ts).1.getD
        ((y * W + x) * 4 + cc) 0
      = (fetchDecodePixels env
          ⟨zoom, startTileOf (topLeftOf cX W) ts + tx0,
            startTileOf (topLeftOf cY H) ts + ty0⟩ ts).getD
          ((((y : ℤ) - tileOffset ty0 (topLeftOf cY H) ts).toNat * ts
            + ((x : ℤ) - tileOffset tx0 (topLeftOf cX W) ts).toNat) * 4
            + cc) 0 := by
  have hNXpos : 0 < numTilesOf (topLeftOf cX W) W ts :=
    lt_of_le_of_lt (Nat.zero_le tx0) htx0
  have hmod : (tx0 + numTilesOf (topLeftOf cX W) W ts * ty0)
      % numTilesOf (topLeftOf cX W) W ts = tx0 := by
    rw [Nat.add_mul_mod_self_left, Nat.mod_eq_of_lt htx0]
  have hdiv : (tx0 + numTilesOf (topLeftOf cX W) W ts * ty0)
      / numTilesOf (topLeftOf cX W) W ts = ty0 := by
    rw [Nat.add_mul_div_left _ _ hNXpos, Nat.div_eq_of_lt htx0, Nat.zero_add]
  have hi0N : tx0 + numTilesOf (topLeftOf cX W) W ts * ty0
      < numTilesOf (topLeftOf cX W) W ts
        * numTilesOf (topLeftOf cY H) H ts := by
    have h1 : numTilesOf (topLeftOf cX W) W ts * (ty0 + 1)
        ≤ numTilesOf (topLeftOf cX W) W ts
          * numTilesOf (topLeftOf cY H) H ts :=
      Nat.mul_le_mul_left _ hty0
    have h2 : numTilesOf (topLeftOf cX W) W ts * (ty0 + 1)
        = numTilesOf (topLeftOf cX W) W ts * ty0
          + numTilesOf (topLeftOf cX W) W ts := by ring
    omega
  have hpairne : ∀ m1 m2 : ℕ, m1 ≠ m2 →
      m1 % numTilesOf (topLeftOf cX W) W ts
          ≠ m2 % numTilesOf (topLeftOf cX W) W ts ∨
      m1 / numTilesOf (topLeftOf cX W) W ts
          ≠ m2 / numTilesOf (topLeftOf cX W) W ts := by
    intro m1 m2 hm
    by_contra hcon
    push_neg at hcon
    obtain ⟨h1, h2⟩ := hcon
    have d1 := Nat.div_add_mod m1 (numTilesOf (topLeftOf cX W) W ts)
    have d2 := Nat.div_add_mod m2 (numTilesOf (topLeftOf cX W) W ts)
    rw [h1, h2] at d1
    omega
  have hkeyne : ∀ t1 u1 t2 u2 : ℕ, (t1 ≠ t2 ∨ u1 ≠ u2) →
      (⟨zoom, startTileOf (topLeftOf cX W) ts + t1,
          startTileOf (topLeftOf cY H) ts + u1⟩ : TileKey)
        ≠ ⟨zoom, startTileOf (topLeftOf cX W) ts + t2,
            startTileOf (topLeftOf cY H) ts + u2⟩ := by
    intro t1 u1 t2 u2 hne heq
    rw [TileKey.mk.injEq] at heq
    obtain ⟨-, hxeq, hyeq⟩ := heq
    rcases hne with h | h
    · exact h (by exact_mod_cast (by omega : (t1 : ℤ) = (t2 : ℤ)))
    · exact h (by exact_mod_cast (by omega : (u1 : ℤ) = (u2 : ℤ)))
  have hdef : CompositeMapEdit env c W H cX cY zoom ts
      = (List.range (numTilesOf (topLeftOf cX W) W ts
          * numTilesOf (topLeftOf cY H) H ts)).foldl
        (compositeStep env W H cX cY zoom ts)
        (List.replicate (W * H * 4) 255, c, 0) := rfl
  rw [hdef]
  refine foldl_range_view_write (compositeStep env W H cX cY zoom ts)
    (fun (st : List ℕ × Cache × ℕ) => st.1.getD ((y * W + x) * 4 + cc) 0)
    (fun (st : List ℕ × Cache × ℕ) m => st.1.length = W * H * 4 ∧
      ∀ idx2 : ℕ, m ≤ idx2 →
        idx2 < numTilesOf (topLeftOf cX W) W ts
          * numTilesOf (topLeftOf cY H) H ts →
        st.2.1 ⟨zoom,
          startTileOf (topLeftOf cX W) ts
            + ((idx2 % numTilesOf (topLeftOf cX W) W ts : ℕ) : ℤ),
          startTileOf (topLeftOf cY H) ts
            + ((idx2 / numTilesOf (topLeftOf cX W) W ts : ℕ) : ℤ)⟩ = none)
    (numTilesOf (topLeftOf cX W) W ts * numTilesOf (topLeftOf cY H) H ts)
    (List.replicate (W * H * 4) 255, c, 0)
    (tx0 + numTilesOf (topLeftOf cX W) W ts * ty0) _
    ⟨by simp, ?_⟩ ?_ hi0N ?_ ?_
  · -- initial cache is cold on the whole grid
    intro idx2 _ hidx2
    refine hcold _ (Nat.mod_lt _ hNXpos) _ ?_
    rw [Nat.div_lt_iff_lt_mul hNXpos]
    rw [Nat.mul_comm] at hidx2
    exact hidx2
  · -- invariant preservation
    intro st m hm hst
    obtain ⟨hL, hC⟩ := hst
    have hcm : st.2.1 ⟨zoom,
        startTileOf (topLeftOf cX W) ts
          + ((m % numTilesOf (topLeftOf cX W) W ts : ℕ) : ℤ),
        startTileOf (topLeftOf cY H) ts
          + ((m / numTilesOf (topLeftOf cX W) W ts : ℕ) : ℤ)⟩ = none :=
      hC m (le_refl m) hm
    constructor
    · show (compositeStep env W H cX cY zoom ts st m).1.length = W * H * 4
      simp only [compositeStep]
      rw [blitTile_length]
      exact hL
    · intro idx2 hge hlt
      show (compositeStep env W H cX cY zoom ts st m).2.1 _ = none
      simp only [compositeStep]
      rw [show LoadAndDecodeTile env st.2.1
          (startTileOf (topLeftOf cX W) ts
            + ((m % numTilesOf (topLeftOf cX W) W ts : ℕ) : ℤ))
          (startTileOf (topLeftOf cY H) ts
            + ((m / numTilesOf (topLeftOf cX W) W ts : ℕ) : ℤ)) zoom ts
          = (fetchDecodePixels env ⟨zoom,
              startTileOf (topLeftOf cX W) ts
                + ((m % numTilesOf (topLeftOf cX W) W ts : ℕ) : ℤ),
              startTileOf (topLeftOf cY H) ts
                + ((m / numTilesOf (topLeftOf cX W) W ts : ℕ) : ℤ)⟩ ts,
             cacheEmplace st.2.1 ⟨zoom,
              startTileOf (topLeftOf cX W) ts
                + ((m % numTilesOf (topLeftOf cX W) W ts : ℕ) : ℤ),
              startTileOf (topLeftOf cY H) ts
                + ((m / numTilesOf (topLeftOf cX W) W ts : ℕ) : ℤ)⟩
              (fetchDecodePixels env ⟨zoom,
                startTileOf (topLeftOf cX W) ts
                  + ((m % numTilesOf (topLeftOf cX W) W ts : ℕ) : ℤ),
                startTileOf (topLeftOf cY H) ts
                  + ((m / numTilesOf (topLeftOf cX W) W ts : ℕ) : ℤ)⟩ ts),
             1) from by simp only [LoadAndDecodeTile]; rw [hcm]]
      exact (cacheEmplace_lookup_ne st.2.1 _ _ _
        (hkeyne _ _ _ _ (hpairne idx2 m (by omega)))).trans
        (hC idx2 (by omega) hlt)
  · -- tiles other than (tx0, ty0) do not touch the byte
    intro st m hm hne hst
    show (compositeStep env W H cX cY zoom ts st m).1.getD
        ((y * W + x) * 4 + cc) 0 = st.1.getD ((y * W + x) * 4 + cc) 0
    simp only [compositeStep]
    apply blitTile_getD_skip st.1 W H _ ts _ _ x y cc hx hcc
    rintro ⟨h1, h2, h3, h4⟩
    rcases hpairne m (tx0 + numTilesOf (topLeftOf cX W) W ts * ty0) hne
      with hp | hp
    · rw [hmod] at hp
      exact huniqx _ hp ⟨h1, h2⟩
    · rw [hdiv] at hp
      exact huniqy _ hp ⟨h3, h4⟩
  · -- tile (tx0, ty0) writes the byte
    intro st hst
    obtain ⟨hL, hC⟩ := hst
    have hcm : st.2.1 ⟨zoom, startTileOf (topLeftOf cX W) ts + (tx0 : ℤ),
        startTileOf (topLeftOf cY H) ts + (ty0 : ℤ)⟩ = none := by
      have := hC (tx0 + numTilesOf (topLeftOf cX W) W ts * ty0)
        (le_refl _) hi0N
      rw [hmod, hdiv] at this
      exact this
    show (compositeStep env W H cX cY zoom ts st
        (tx0 + numTilesOf (topLeftOf cX W) W ts * ty0)).1.getD
        ((y * W + x) * 4 + cc) 0 = _
    simp only [compositeStep]
    rw [hmod, hdiv]
    rw [show LoadAndDecodeTile env st.2.1
        (startTileOf (topLeftOf cX W) ts + (tx0 : ℤ))
        (startTileOf (topLeftOf cY H) ts + (ty0 : ℤ)) zoom ts
        = (fetchDecodePixels env ⟨zoom,
            startTileOf (topLeftOf cX W) ts + (tx0 : ℤ),
            startTileOf (topLeftOf cY H) ts + (ty0 : ℤ)⟩ ts,
           cacheEmplace st.2.1 ⟨zoom,
            startTileOf (topLeftOf cX W) ts + (tx0 : ℤ),
            startTileOf (topLeftOf cY H) ts + (ty0 : ℤ)⟩
            (fetchDecodePixels env ⟨zoom,
              startTileOf (topLeftOf cX W) ts + (tx0 : ℤ),
              startTileOf (topLeftOf cY H) ts + (ty0 : ℤ)⟩ ts),
           1) from by simp only [LoadAndDecodeTile]; rw [hcm]]
    exact blitTile_getD_write st.1 W H _ ts _ _ x y cc hx hy hcc
      (by rw [hL]; exact pixel_byte_lt W H x y cc hx hy hcc)
      ⟨hinx.1, hinx.2, hiny.1, hiny.2⟩

/-- Pointwise value of the `c1.cpp` compositor: output pixel `(x, y)`
samples tile `(tx0, ty0)` at the in-tile pixel given by the truncating
cast-and-modulo, when that tile decodes successfully. -/
theorem CompositeMapC1_getD_cover (env : Env) (W H : ℕ)
    (cX cY : ℚ) (zoom : ℤ) (ts : ℕ)
    (x y cc : ℕ) (hx : x < W) (hy : y < H) (hcc : cc < 4)
    (tx0 ty0 : ℕ)
    (htx0 : tx0 < numTilesOf (topLeftOf cX W) W ts)
    (hty0 : ty0 < numTilesOf (topLeftOf cY H) H ts)
    (hcolx : ⌊(topLeftOf cX W + (x : ℚ)) / (ts : ℚ)⌋
        - startTileOf (topLeftOf cX W) ts = (tx0 : ℤ))
    (hrowy : ⌊(topLeftOf cY H + (y : ℚ)) / (ts : ℚ)⌋
        - startTileOf (topLeftOf cY H) ts = (ty0 : ℤ))
    (pxv pyv : ℕ)
    (hpx : Int.tmod (ratTrunc (topLeftOf cX W + (x : ℚ))) (ts : ℤ)
        = (pxv : ℤ))
    (hpy : Int.tmod (ratTrunc (topLeftOf cY H + (y : ℚ))) (ts : ℤ)
        = (pyv : ℤ))
    (htile : LoadTileImage env
        ⟨zoom, startTileOf (topLeftOf cX W) ts + tx0,
          startTileOf (topLeftOf cY H) ts + ty0⟩
      = some (fetchDecodePixels env
          ⟨zoom, startTileOf (topLeftOf cX W) ts + tx0,
            startTileOf (topLeftOf cY H) ts + ty0⟩ ts)) :
    (CompositeMapC1 env W H cX cY zoom ts).getD ((y * W + x) * 4 + cc) 0
      = (fetchDecodePixels env
          ⟨zoom, startTileOf (topLeftOf cX W) ts + tx0,
            startTileOf (topLeftOf cY H) ts + ty0⟩ ts).getD
          ((pyv * ts + pxv) * 4 + cc) 0 := by
  have hdef : CompositeMapC1 env W H cX cY zoom ts
      = (List.range H).foldl (fun buf j =>
          (List.range W).foldl
            (c1PixelStep
              (fun row col => LoadTileImage env
                ⟨zoom, startTileOf (topLeftOf cX W) ts + col,
                  startTileOf (topLeftOf cY H) ts + row⟩)
              W (topLeftOf cX W) (topLeftOf cY H)
              (startTileOf (topLeftOf cX W) ts)
              (startTileOf (topLeftOf cY H) ts)
              (numTilesOf (topLeftOf cX W) W ts)
              (numTilesOf (topLeftOf cY H) H ts) ts j) buf)
        (List.replicate (W * H * 4) 255) := rfl
  have hsteplen : ∀ (j : ℕ) (b : List ℕ) (i : ℕ),
      (c1PixelStep
        (fun row col => LoadTileImage env
          ⟨zoom, startTileOf (topLeftOf cX W) ts + col,
            startTileOf (topLeftOf cY H) ts + row⟩)
        W (topLeftOf cX W) (topLeftOf cY H)
        (startTileOf (topLeftOf cX W) ts) (startTileOf (topLeftOf cY H) ts)
        (numTilesOf (topLeftOf cX W) W ts) (numTilesOf (topLeftOf cY H) H ts)
        ts j b i).length = b.length :=
    fun j b i => c1PixelStep_length _ _ _ _ _ _ _ _ _ _ _ _
  have hskip : ∀ (j : ℕ) (b : List ℕ) (i : ℕ), i < W → ¬(j = y ∧ i = x) →
      (c1PixelStep
        (fun row col => LoadTileImage env
          ⟨zoom, startTileOf (topLeftOf cX W) ts + col,
            startTileOf (topLeftOf cY H) ts + row⟩)
        W (topLeftOf cX W) (topLeftOf cY H)
        (startTileOf (topLeftOf cX W) ts) (startTileOf (topLeftOf cY H) ts)
        (numTilesOf (topLeftOf cX W) W ts) (numTilesOf (topLeftOf cY H) H ts)
        ts j b i).getD ((y * W + x) * 4 + cc) 0
        = b.getD ((y * W + x) * 4 + cc) 0 := by
    intro j b i hi hne
    have hpne : j * W + i ≠ y * W + x := by
      apply pixel_pos_ne W i x j y hi hx
      by_cases hji : j = y
      · left
        intro hix
        exact hne ⟨hji, hix⟩
      · right
        exact hji
    simp only [c1PixelStep]
    split
    · split
      · apply copy4_getD_outside
        omega
      · rfl
    · rfl
  rw [hdef]
  refine foldl_range_view_write _
    (fun (b : List ℕ) => b.getD ((y * W + x) * 4 + cc) 0)
    (fun (b : List ℕ) _ => b.length = W * H * 4) H _ y _
    (by simp) ?_ hy ?_ ?_
  · -- outer invariant: length
    intro b j _ hb
    refine foldl_range_invariant _
      (fun (b2 : List ℕ) _ => b2.length = W * H * 4) W b hb ?_
    intro b2 i _ hb2
    rw [hsteplen]
    exact hb2
  · -- rows other than y leave the byte alone
    intro b j _ hjy hb
    refine foldl_range_view_skip _
      (fun (b2 : List ℕ) => b2.getD ((y * W + x) * 4 + cc) 0)
      (fun (b2 : List ℕ) _ => True) W b trivial (fun _ _ _ _ => trivial) ?_
    intro b2 i hi _
    exact hskip j b2 i hi (fun hc => hjy hc.1)
  · -- row y: column x writes the byte
    intro b hb
    refine foldl_range_view_write _
      (fun (b2 : List ℕ) => b2.getD ((y * W + x) * 4 + cc) 0)
      (fun (b2 : List ℕ) _ => b2.length = W * H * 4) W b x _ hb ?_ hx ?_ ?_
    · intro b2 i _ hb2
      rw [hsteplen]
      exact hb2
    · intro b2 i _ hix hb2
      exact hskip y b2 i ‹i < W› (fun hc => hix hc.2)
    · intro b2 hb2
      simp only [c1PixelStep]
      rw [hcolx, hrowy, hpx, hpy]
      rw [if_pos ⟨Int.ofNat_nonneg ty0, by exact_mod_cast hty0,
        Int.ofNat_nonneg tx0, by exact_mod_cast htx0⟩]
      rw [Int.toNat_natCast, Int.toNat_natCast]
      rw [htile]
      have hidx : (((pyv : ℤ) * (ts : ℤ) + (pxv : ℤ)) * 4).toNat
          = (pyv * ts + pxv) * 4 := by
        rw [show ((pyv : ℤ) * (ts : ℤ) + (pxv : ℤ)) * 4
            = (((pyv * ts + pxv) * 4 : ℕ) : ℤ) by push_cast; ring]
        omega
      rw [hidx]
      have := copy4_getD_inside b2 ((y * W + x) * 4)
        (fetchDecodePixels env
          ⟨zoom, startTileOf (topLeftOf cX W) ts + tx0,
            startTileOf (topLeftOf cY H) ts + ty0⟩ ts)
        ((pyv * ts + pxv) * 4) cc hcc
        (by rw [hb2]; exact pixel_byte_lt W H x y cc hx hy hcc)
      rw [this]

theorem CompositeMapEdit_raster_length (env : Env) (c : Cache) (W H : ℕ)
    (cX cY : ℚ) (zoom : ℤ) (ts : ℕ) :
    (CompositeMapEdit env c W H cX cY zoom ts).1.length = W * H * 4 := by
  have hdef : CompositeMapEdit env c W H cX cY zoom ts
      = (List.range (numTilesOf (topLeftOf cX W) W ts
          * numTilesOf (topLeftOf cY H) H ts)).foldl
        (compositeStep env W H cX cY zoom ts)
        (List.replicate (W * H * 4) 255, c, 0) := rfl
  rw [hdef]
  exact foldl_range_invariant (compositeStep env W H cX cY zoom ts)
    (fun st _ => st.1.length = W * H * 4) _ _ (by simp)
    (fun st idx _ h => by
      show (compositeStep env W H cX cY zoom ts st idx).1.length = W * H * 4
      simp only [compositeStep]
      rw [blitTile_length]
      exact h)

/-- C10 (amended): when the viewport's top-left global pixel coordinates
are nonnegative integers, the per-tile-blit compositor of `edit.cpp`
(cold cache on the grid) and the per-output-pixel compositor of `c1.cpp`
produce byte-identical rasters, provided every grid tile fetches and
decodes to the same `tileSize × tileSize` RGBA image in both.  (For
fractional top-left coordinates the two compositors sample the tiles
differently and the rasters differ: `C10_counterexample`.) -/
theorem C10_integer_topleft_agree (env : Env) (c : Cache) (W H : ℕ)
    (cX cY : ℚ) (zoom : ℤ) (ts a b : ℕ) (hts : 0 < ts)
    (ha : topLeftOf cX W = ((a : ℕ) : ℚ))
    (hb : topLeftOf cY H = ((b : ℕ) : ℚ))
    (hcold : ∀ tx : ℕ, tx < numTilesOf (topLeftOf cX W) W ts →
      ∀ ty : ℕ, ty < numTilesOf (topLeftOf cY H) H ts →
      c ⟨zoom, startTileOf (topLeftOf cX W) ts + tx,
          startTileOf (topLeftOf cY H) ts + ty⟩ = none)
    (hfetch : ∀ tx : ℕ, tx < numTilesOf (topLeftOf cX W) W ts →
      ∀ ty : ℕ, ty < numTilesOf (topLeftOf cY H) H ts →
      ∃ raw img, env.fetch ⟨zoom, startTileOf (topLeftOf cX W) ts + tx,
          startTileOf (topLeftOf cY H) ts + ty⟩ = some raw ∧
        env.decode raw = some (ts, ts, img) ∧ img.length = ts * ts * 4) :
    (CompositeMapEdit env c W H cX cY zoom ts).1
      = CompositeMapC1 env W H cX cY zoom ts := by
  apply List.ext_getElem
  · rw [CompositeMapEdit_raster_length, CompositeMapC1_length]
  intro n h1 h2
  have hn : n < W * H * 4 := by
    rw [CompositeMapEdit_raster_length] at h1
    exact h1
  obtain ⟨x, y, cc, hx, hy, hcc, rfl⟩ := byte_decompose W H n hn
  rw [← List.getD_eq_getElem _ 0 h1, ← List.getD_eq_getElem _ 0 h2]
  obtain ⟨hmemx, habsx, hpixx, hboundx, huniqx⟩ := axis_cover a ts x W hts hx
  obtain ⟨hmemy, habsy, hpixy, hboundy, huniqy⟩ := axis_cover b ts y H hts hy
  have hoffx : ∀ t : ℕ, tileOffset t (topLeftOf cX W) ts
      = (t : ℤ) * (ts : ℤ) - ((a % ts : ℕ) : ℤ) := fun t => by
    rw [ha, tileOffset_natCast]
  have hoffy : ∀ t : ℕ, tileOffset t (topLeftOf cY H) ts
      = (t : ℤ) * (ts : ℤ) - ((b % ts : ℕ) : ℤ) := fun t => by
    rw [hb, tileOffset_natCast]
  have hNX : numTilesOf (topLeftOf cX W) W ts = (a + W) / ts - a / ts + 1 := by
    rw [ha, numTilesOf_natCast]
  have hNY : numTilesOf (topLeftOf cY H) H ts = (b + H) / ts - b / ts + 1 := by
    rw [hb, numTilesOf_natCast]
  have hSX : startTileOf (topLeftOf cX W) ts = ((a / ts : ℕ) : ℤ) := by
    rw [ha, startTileOf_natCast]
  have hSY : startTileOf (topLeftOf cY H) ts = ((b / ts : ℕ) : ℤ) := by
    rw [hb, startTileOf_natCast]
  have htx0NX : (x + a % ts) / ts < numTilesOf (topLeftOf cX W) W ts := by
    rw [hNX]
    exact hboundx
  have hty0NY : (y + b % ts) / ts < numTilesOf (topLeftOf cY H) H ts := by
    rw [hNY]
    exact hboundy
  have hcolx : ⌊(topLeftOf cX W + (x : ℚ)) / (ts : ℚ)⌋
      - startTileOf (topLeftOf cX W) ts = (((x + a % ts) / ts : ℕ) : ℤ) := by
    rw [ha, startTileOf_natCast]
    rw [show ((a : ℕ) : ℚ) + (x : ℚ) = (((a + x : ℕ)) : ℚ) by push_cast; ring]
    rw [Rat.floor_natCast_div_natCast]
    rw [show (((a + x : ℕ) : ℤ)) / ((ts : ℕ) : ℤ)
        = (((a + x) / ts : ℕ) : ℤ) from (Int.ofNat_tdiv _ _).symm]
    omega
  have hrowy : ⌊(topLeftOf cY H + (y : ℚ)) / (ts : ℚ)⌋
      - startTileOf (topLeftOf cY H) ts = (((y + b % ts) / ts : ℕ) : ℤ) := by
    rw [hb, startTileOf_natCast]
    rw [show ((b : ℕ) : ℚ) + (y : ℚ) = (((b + y : ℕ)) : ℚ) by push_cast; ring]
    rw [Rat.floor_natCast_div_natCast]
    rw [show (((b + y : ℕ) : ℤ)) / ((ts : ℕ) : ℤ)
        = (((b + y) / ts : ℕ) : ℤ) from (Int.ofNat_tdiv _ _).symm]
    omega
  have hpxv : Int.tmod (ratTrunc (topLeftOf cX W + (x : ℚ))) (ts : ℤ)
      = (((a + x) % ts : ℕ) : ℤ) := by
    rw [ha]
    rw [show ((a : ℕ) : ℚ) + (x : ℚ) = ((((a + x : ℕ) : ℤ)) : ℚ) by
      push_cast; ring]
    rw [ratTrunc_intCast]
    rw [Int.tmod_eq_emod (by positivity) (by positivity)]
    exact (Int.natCast_mod _ _).symm
  have hpyv : Int.tmod (ratTrunc (topLeftOf cY H + (y : ℚ))) (ts : ℤ)
      = (((b + y) % ts : ℕ) : ℤ) := by
    rw [hb]
    rw [show ((b : ℕ) : ℚ) + (y : ℚ) = ((((b + y : ℕ) : ℤ)) : ℚ) by
      push_cast; ring]
    rw [ratTrunc_intCast]
    rw [Int.tmod_eq_emod (by positivity) (by positivity)]
    exact (Int.natCast_mod _ _).symm
  have htile : LoadTileImage env
      ⟨zoom, startTileOf (topLeftOf cX W) ts + ((x + a % ts) / ts : ℕ),
        startTileOf (topLeftOf cY H) ts + ((y + b % ts) / ts : ℕ)⟩
      = some (fetchDecodePixels env
          ⟨zoom, startTileOf (topLeftOf cX W) ts + ((x + a % ts) / ts : ℕ),
            startTileOf (topLeftOf cY H) ts + ((y + b % ts) / ts : ℕ)⟩ ts) := by
    obtain ⟨raw, img, hf, hd, -⟩ := hfetch _ htx0NX _ hty0NY
    exact LoadTileImage_eq_fetchDecode env _ ts raw img hf hd
  rw [CompositeMapEdit_getD_cover env c W H cX cY zoom ts x y cc hx hy hcc
    ((x + a % ts) / ts) ((y + b % ts) / ts) htx0NX hty0NY
    (by rw [hoffx]; exact hmemx) (by rw [hoffy]; exact hmemy)
    (fun t ht => by rw [hoffx]; exact huniqx t ht)
    (fun t ht => by rw [hoffy]; exact huniqy t ht) hcold]
  rw [CompositeMapC1_getD_cover env W H cX cY zoom ts x y cc hx hy hcc
    ((x + a % ts) / ts) ((y + b % ts) / ts) htx0NX hty0NY hcolx hrowy
    ((a + x) % ts) ((b + y) % ts) hpxv hpyv htile]
  have hXi : ((x : ℤ) - tileOffset ((x + a % ts) / ts) (topLeftOf cX W) ts).toNat
      = (a + x) % ts := by
    rw [hoffx, hpixx, Int.toNat_natCast]
  have hYi : ((y : ℤ) - tileOffset ((y + b % ts) / ts) (topLeftOf cY H) ts).toNat
      = (b + y) % ts := by
    rw [hoffy, hpixy, Int.toNat_natCast]
  rw [hXi, hYi]

/-- C10 (counterexample): at the fractional top-left `topLeftX = 1/2`
(center 1, width 1, tileSize 2), with the same always-succeeding 2×2
tile in both implementations and no failures, `edit.cpp` renders tile
pixel (1,0) while `c1.cpp` renders tile pixel (0,0): the rasters differ. -/
theorem C10_counterexample :
    (CompositeMapEdit
        ⟨fun _ => some [0],
         fun _ => some (2, 2, [1, 1, 1, 1, 2, 2, 2, 2, 3, 3, 3, 3, 4, 4, 4, 4])⟩
        emptyCache 1 1 1 (1/2) 0 2).1
      ≠ CompositeMapC1
        ⟨fun _ => some [0],
         fun _ => some (2, 2, [1, 1, 1, 1, 2, 2, 2, 2, 3, 3, 3, 3, 4, 4, 4, 4])⟩
        1 1 1 (1/2) 0 2 ∧
    (CompositeMapEdit
        ⟨fun _ => some [0],
         fun _ => some (2, 2, [1, 1, 1, 1, 2, 2, 2, 2, 3, 3, 3, 3, 4, 4, 4, 4])⟩
        emptyCache 1 1 1 (1/2) 0 2).1 = [2, 2, 2, 2] ∧
    CompositeMapC1
        ⟨fun _ => some [0],
         fun _ => some (2, 2, [1, 1, 1, 1, 2, 2, 2, 2, 3, 3, 3, 3, 4, 4, 4, 4])⟩
        1 1 1 (1/2) 0 2 = [1, 1, 1, 1] := by
  refine ⟨by with_unfolding_all decide, by with_unfolding_all decide,
    by with_unfolding_all decide⟩

/-- C10 witness: integer top-left (0,0) (center (1,1), 2×2 output,
tileSize 2), every tile the same decoded 2×2 image: identical rasters. -/
theorem C10_integer_topleft_agree_witness :
    (CompositeMapEdit
        ⟨fun _ => some [0],
         fun _ => some (2, 2,
          [10, 11, 12, 13, 20, 21, 22, 23, 30, 31, 32, 33, 40, 41, 42, 43])⟩
        emptyCache 2 2 1 1 0 2).1
      = CompositeMapC1
        ⟨fun _ => some [0],
         fun _ => some (2, 2,
          [10, 11, 12, 13, 20, 21, 22, 23, 30, 31, 32, 33, 40, 41, 42, 43])⟩
        2 2 1 1 0 2 :=
  C10_integer_topleft_agree
    ⟨fun _ => some [0],
     fun _ => some (2, 2,
      [10, 11, 12, 13, 20, 21, 22, 23, 30, 31, 32, 33, 40, 41, 42, 43])⟩
    emptyCache 2 2 1 1 0 2 0 0 (by norm_num)
    (by norm_num [topLeftOf]) (by norm_num [topLeftOf])
    (fun tx _ ty _ => rfl)
    (fun tx _ ty _ =>
      ⟨[0], [10, 11, 12, 13, 20, 21, 22, 23, 30, 31, 32, 33, 40, 41, 42, 43],
        rfl, rfl, rfl⟩)
